import Mathlib

/-! Hard-disk Monte Carlo: the move kernel, the periodic wrap and the delta calibrator.

A shallow embedding of `src/src/hdmc.cpp` and of the tag reader of `src/src/main.cpp`.

* A C++ `double` is an exact rational number: the theorems below are statements about the
  arithmetic the code writes down, without rounding error.  In `networkAnalysis`, whose
  divisions can have the divisor 0, a double is an `Option ℚ`, and `none` is a double that
  is not a finite number.
* An `int` is an unbounded integer, except the products that `networkAnalysis` forms in
  `int`, which are wrapped to 32 bits; the particle count `n`, an index and a loop bound are
  natural numbers.
* The C library functions `log10`, `pow` and `sqrt` are parameters of the model.
* The simulation object is the record `HDMC`; a member function is a function on that record.
* The random engine `mtGen` is a finite tape of future draws.  A distribution that finds the
  tape empty, or finds a value outside its own range, has no result (`none`).
-/

/-! ## Data model -/

/-- The engine `mtGen` as the two distributions see it: the values `randParticle` will
return and the values `rand01` will return, in the order of the calls. -/
structure MtGen where
  ints : List Nat := []
  reals : List ℚ := []

/-- The members of `class HDMC` that the move kernel, the calibrator and the analysis read or
write. -/
structure HDMC where
  n : Nat := 0
  phi : ℚ := 0
  dispersity : Int := 0
  dispersityParams : List ℚ := []
  interaction : Int := 0
  cellLen : ℚ := 0
  rCellLen : ℚ := 0
  cellLen_2 : ℚ := 0
  x : List ℚ := []
  y : List ℚ := []
  r : List ℚ := []
  mtGen : MtGen := {}
  eqCycles : Int := 0
  prodCycles : Int := 0
  swapProb : ℚ := 0
  transProb : ℚ := 0
  acceptTarget : ℚ := 0
  transDelta : ℚ := 0
  rdfCalc : Bool := false
  rdfNorm : Bool := false
  rdfDelta : ℚ := 0
  rdfHist : List Int := []
  analysisConfigs : Int := 0
  vorCalc : Bool := false
  radCalc : Bool := false
  maxVertices : Nat := 0
  vorSizes : List Int := []
  vorAdjs : List (List Int) := []
  radSizes : List Int := []
  radAdjs : List (List Int) := []

namespace HDMC

/-- Modelled from the spec: `VecF<double>` of `vecf.h` (not among the sources), a vector with
indexed read and write.  This is the read `v[i]`; the write `v[i]=a` is `List.set`. -/
def vget (v : List ℚ) (i : Nat) : ℚ := v.getD i 0

/-! ## Periodic geometry -/

/-- The C library function `nearbyint` in the default rounding mode: the nearest integer,
a tie going to the even neighbour. -/
def nearbyint (q : ℚ) : ℤ :=
  let f : ℤ := ⌊q⌋
  let d : ℚ := q - f
  if d < 1 / 2 then f
  else if 1 / 2 < d then f + 1
  else if f % 2 = 0 then f else f + 1

/-- The folding statement `u -= cellLen*nearbyint(u*rCellLen)`, which `hdmc.cpp` writes out
at every use (lines 176, 232, 278, 287, 321, 333, 342, 356, 536). -/
def wrap (cellLen rCellLen u : ℚ) : ℚ :=
  u - cellLen * nearbyint (u * rCellLen)

/-- The squared minimum-image distance `dSq=dx*dx+dy*dy` of the overlap tests, with
`dx=x1-x2`, `dy=y1-y2` folded by the cell length (lines 285-289, 331-335, 340-344, 354-358). -/
def distSq (s : HDMC) (x1 y1 x2 y2 : ℚ) : ℚ :=
  let dx := wrap s.cellLen s.rCellLen (x1 - x2)
  let dy := wrap s.cellLen s.rCellLen (y1 - y2)
  dx * dx + dy * dy

/-! ## Random number service -/

/-- One call `rand01(mtGen)`: the next real draw, a value of `[0,1)`. -/
def rand01 (g : MtGen) : Option (ℚ × MtGen) :=
  match g.reals with
  | [] => none
  | u :: rest => if 0 ≤ u ∧ u < 1 then some (u, { g with reals := rest }) else none

/-- One call `randParticle(mtGen)` of `uniform_int_distribution<int>(0,n-1)`: the next
integer draw, a value of `0..n-1`. -/
def randParticle (n : Nat) (g : MtGen) : Option (Nat × MtGen) :=
  match g.ints with
  | [] => none
  | d :: rest => if d < n then some (d, { g with ints := rest }) else none

/-- The loop `int pJ=pI; while(pI==pJ) pJ=randParticle(mtGen);` (lines 307-308) on the tape
of integer draws: draws equal to `pI` are discarded, the first other one is returned.  The
C++ loop has no exit while the draws keep returning `pI` (always so for `n = 1`); on a
finite tape that is the result `none`. -/
def secondParticleLoop (n pI : Nat) : List Nat → Option (Nat × List Nat)
  | [] => none
  | d :: rest =>
    if d < n then
      if pI = d then secondParticleLoop n pI rest else some (d, rest)
    else none

/-- Lines 307-308 as a step of the engine. -/
def secondParticle (n pI : Nat) (g : MtGen) : Option (Nat × MtGen) :=
  match secondParticleLoop n pI g.ints with
  | none => none
  | some (pJ, rest) => some (pJ, { g with ints := rest })

/-! ## Setters -/

/-- `HDMC::setParticles` (lines 17-28); the constant return code 0 is left out. -/
def setParticles (s : HDMC) (num : Nat) (packFrac : ℚ) (disp : Int) (dispParams : List ℚ)
    (interact : Int) : HDMC :=
  { s with n := num, interaction := interact, phi := packFrac, dispersity := disp,
           dispersityParams := dispParams }

/-- `HDMC::setSimulation` (lines 42-53); the constant return code 0 is left out. -/
def setSimulation (s : HDMC) (eq prod : Int) (swap accTarg : ℚ) : HDMC :=
  { s with eqCycles := eq, prodCycles := prod, swapProb := swap, transProb := 1 - swap,
           acceptTarget := accTarg, transDelta := 1 }

/-! ## Initial random placement -/

/-- The body of the loop of `generateRandomPositions` (lines 174-177) for particle `i`,
given the two draws. -/
def placeParticle (s : HDMC) (i : Nat) (u v : ℚ) : HDMC :=
  let x0 := u * s.cellLen
  let y0 := v * s.cellLen
  let x1 := x0 - s.cellLen * nearbyint (x0 * s.rCellLen)
  let y1 := y0 - s.cellLen * nearbyint (y0 * s.rCellLen)
  { s with x := s.x.set i x1, y := s.y.set i y1 }

/-- The loop `for(int i=0; i<n; ++i)` of `generateRandomPositions`, `k` iterations left. -/
def generateRandomPositionsLoop : Nat → Nat → HDMC → Option HDMC
  | 0, _, s => some s
  | k + 1, i, s =>
    match rand01 s.mtGen with
    | none => none
    | some (u, g1) =>
      match rand01 g1 with
      | none => none
      | some (v, g2) =>
        generateRandomPositionsLoop k (i + 1) (placeParticle { s with mtGen := g2 } i u v)

/-- `HDMC::generateRandomPositions` (lines 169-179). -/
def generateRandomPositions (s : HDMC) : Option HDMC :=
  generateRandomPositionsLoop s.n 0 s

/-! ## Move kernel -/

/-- The overlap loop of the translation branch (lines 283-295): `accept` stays `true`
unless some `i` has `dSq<rSq && i!=pI`. -/
def translationCheck (s : HDMC) (pI : Nat) (xI yI rI : ℚ) : Bool :=
  (List.range s.n).all fun i =>
    !(decide (distSq s xI yI (vget s.x i) (vget s.y i) < (rI + vget s.r i) ^ 2)
      && decide (i ≠ pI))

/-- Lines 281-301 of the translation branch: the overlap test of the proposed position
`(xI, yI)` for particle `pI`, and the commit on acceptance. -/
def translationCommit (s : HDMC) (pI : Nat) (xI yI : ℚ) (counter : Int) : HDMC × Int :=
  if translationCheck s pI xI yI (vget s.r pI) then
    ({ s with x := s.x.set pI xI, y := s.y.set pI yI }, counter + 1)
  else (s, counter)

/-- The proposed coordinate of lines 276-279 (and 319-326): `c+=transDelta*(2*u-1)` followed
by the fold. -/
def propose (s : HDMC) (c u : ℚ) : ℚ :=
  wrap s.cellLen s.rCellLen (c + s.transDelta * (2 * u - 1))

/-- The translation branch of `mcAdditiveMove` (lines 273-301) for the chosen particle `pI`
and the two draws `u`, `v`. -/
def translationMove (s : HDMC) (pI : Nat) (u v : ℚ) (counter : Int) : HDMC × Int :=
  translationCommit s pI (propose s (vget s.x pI) u) (propose s (vget s.y pI) v) counter

/-- One overlap loop of the swap branch (lines 339-350 and 353-364): no `i` has
`dSq<rSq && i!=pI && i!=pJ`. -/
def swapCheck (s : HDMC) (pI pJ : Nat) (xP yP rP : ℚ) : Bool :=
  (List.range s.n).all fun i =>
    !(decide (distSq s xP yP (vget s.x i) (vget s.y i) < (rP + vget s.r i) ^ 2)
      && decide (i ≠ pI) && decide (i ≠ pJ))

/-- The three tests of the swap branch (lines 329-365) for proposal I `(xI, yI, rI)` and
proposal J `(xJ, yJ, rJ)`; a later test runs only `if(accept)`. -/
def swapAccept (s : HDMC) (pI pJ : Nat) (xI yI rI xJ yJ rJ : ℚ) : Bool :=
  !(decide (distSq s xI yI xJ yJ < (rI + rJ) ^ 2))
    && swapCheck s pI pJ xI yI rI
    && swapCheck s pI pJ xJ yJ rJ

/-- Lines 328-375 of the swap branch: the tests and the commit on acceptance. -/
def swapCommit (s : HDMC) (pI pJ : Nat) (xI yI rI xJ yJ rJ : ℚ) (counter : Int) :
    HDMC × Int :=
  if swapAccept s pI pJ xI yI rI xJ yJ rJ then
    ({ s with x := (s.x.set pI xI).set pJ xJ,
              y := (s.y.set pI yI).set pJ yJ,
              r := (s.r.set pI rI).set pJ rJ }, counter + 1)
  else (s, counter)

/-- The swap branch of `mcAdditiveMove` (lines 310-375) for the chosen particles `pI`, `pJ`
and the four draws: proposal I starts from slot `pJ`, proposal J from slot `pI`. -/
def swapMove (s : HDMC) (pI pJ : Nat) (u1 v1 u2 v2 : ℚ) (counter : Int) : HDMC × Int :=
  swapCommit s pI pJ
    (propose s (vget s.x pJ) u1) (propose s (vget s.y pJ) v1) (vget s.r pJ)
    (propose s (vget s.x pI) u2) (propose s (vget s.y pI) v2) (vget s.r pI) counter

/-- `HDMC::mcAdditiveMove` (lines 262-377); `counter` is the reference parameter, returned
with the state. -/
def mcAdditiveMove (s : HDMC) (counter : Int) : Option (HDMC × Int) :=
  match randParticle s.n s.mtGen with
  | none => none
  | some (pI, g1) =>
    match rand01 g1 with
    | none => none
    | some (b, g2) =>
      if b < s.transProb then
        match rand01 g2 with
        | none => none
        | some (u, g3) =>
          match rand01 g3 with
          | none => none
          | some (v, g4) => some (translationMove { s with mtGen := g4 } pI u v counter)
      else
        match secondParticle s.n pI g2 with
        | none => none
        | some (pJ, g3) =>
          match rand01 g3 with
          | none => none
          | some (u1, g4) =>
            match rand01 g4 with
            | none => none
            | some (v1, g5) =>
              match rand01 g5 with
              | none => none
              | some (u2, g6) =>
                match rand01 g6 with
                | none => none
                | some (v2, g7) =>
                  some (swapMove { s with mtGen := g7 } pI pJ u1 v1 u2 v2 counter)

/-- The loop `for(int i=0; i<n; ++i) mcAdditiveMove(accCount)` of `mcCycle`, `k` iterations
left. -/
def mcCycleLoop : Nat → HDMC → Int → Option (HDMC × Int)
  | 0, s, accCount => some (s, accCount)
  | k + 1, s, accCount =>
    match mcAdditiveMove s accCount with
    | none => none
    | some (s1, c1) => mcCycleLoop k s1 c1

/-- `HDMC::mcCycle` (lines 250-259): the state after the cycle and the returned `accCount`. -/
def mcCycle (s : HDMC) : Option (HDMC × Int) :=
  if s.interaction = 0 then mcCycleLoop s.n s 0 else some (s, 0)

/-! ## Delta calibrator

`log10` and `pow(10,.)` of the C library are parameters of the model. -/

/-- The loop `for(int j=0; j<10; ++j) accCount+=mcCycle();` (lines 456, 486), `k` iterations
left. -/
def runCycles : Nat → HDMC → Int → Option (HDMC × Int)
  | 0, s, accCount => some (s, accCount)
  | k + 1, s, accCount =>
    match mcCycle s with
    | none => none
    | some (s1, c) => runCycles k s1 (accCount + c)

/-- The loop of lines 453-458 that measures `trialProb[i]` at `transDelta=trialDelta[i]`,
`k` iterations left. -/
def trialLoop (trialDelta : List ℚ) : Nat → Nat → HDMC → List ℚ → Option (HDMC × List ℚ)
  | 0, _, s, trialProb => some (s, trialProb)
  | k + 1, i, s, trialProb =>
    match runCycles 10 { s with transDelta := vget trialDelta i } 0 with
    | none => none
    | some (s1, accCount) =>
      trialLoop trialDelta k (i + 1) s1 (trialProb.set i ((accCount : ℚ) / (10 * (s1.n : ℚ))))

/-- The loop of lines 473-479 over the trials, `k` iterations left: the new
`(deltaMin, deltaMax)`. -/
def bracketLoop (trialDelta trialProb : List ℚ) (acceptTarget : ℚ) :
    Nat → Nat → ℚ → ℚ → ℚ × ℚ
  | 0, _, deltaMin, deltaMax => (deltaMin, deltaMax)
  | k + 1, i, deltaMin, deltaMax =>
    if vget trialProb i > acceptTarget then
      bracketLoop trialDelta trialProb acceptTarget k (i + 1) (vget trialDelta i) deltaMax
    else if vget trialProb i < acceptTarget then (deltaMin, vget trialDelta i)
    else bracketLoop trialDelta trialProb acceptTarget k (i + 1) deltaMin deltaMax

/-- The variables the limit selection of `optimalDelta` works on: the member `transDelta`,
the reference parameters `deltaMin`, `deltaMax` and the local `optCode`, which line 461
declares without a value (`none`). -/
structure Limits where
  transDelta : ℚ
  deltaMin : ℚ
  deltaMax : ℚ
  optCode : Option Int

/-- The first statement of the limit selection (lines 462-466), an `if` without `else`. -/
def lowerLimit (trialDelta trialProb : List ℚ) (acceptTarget : ℚ) (l : Limits) : Limits :=
  if vget trialProb 0 < acceptTarget then
    { l with transDelta := vget trialDelta 0, optCode := some 1 }
  else l

/-- The second statement of the limit selection (lines 467-482),
`if(trialProb[10]>acceptTarget) ... else ...`. -/
def upperLimit (log10 pow10 : ℚ → ℚ) (trialDelta trialProb : List ℚ) (acceptTarget : ℚ)
    (l : Limits) : Limits :=
  if vget trialProb 10 > acceptTarget then
    { l with transDelta := vget trialDelta 10, optCode := some 2 }
  else
    let b := bracketLoop trialDelta trialProb acceptTarget 11 0 l.deltaMin l.deltaMax
    { l with deltaMin := b.1, deltaMax := b.2,
             transDelta := pow10 (1 / 2 * (log10 b.1 + log10 b.2)), optCode := some 0 }

/-- The limit selection of `optimalDelta` (lines 460-482): the two statements in sequence. -/
def limitSelection (log10 pow10 : ℚ → ℚ) (trialDelta trialProb : List ℚ)
    (acceptTarget transDelta deltaMin deltaMax : ℚ) : Limits :=
  upperLimit log10 pow10 trialDelta trialProb acceptTarget
    (lowerLimit trialDelta trialProb acceptTarget
      { transDelta := transDelta, deltaMin := deltaMin, deltaMax := deltaMax,
        optCode := none })

/-- The trial values of line 450:
`trialDelta[i]=pow(10,logDeltaMin+i*(logDeltaMax-logDeltaMin)/10.0)` for `i = 0..10`. -/
def trialDeltas (log10 pow10 : ℚ → ℚ) (deltaMin deltaMax : ℚ) : List ℚ :=
  (List.range 11).map fun (i : Nat) =>
    pow10 (log10 deltaMin + ((i : Nat) : ℚ) * (log10 deltaMax - log10 deltaMin) / 10)

/-- The result of `optimalDelta`: the state, the three reference parameters and the
returned code. -/
structure DeltaResult where
  state : HDMC
  deltaMin : ℚ
  deltaMax : ℚ
  accProb : ℚ
  optCode : Option Int

/-- `HDMC::optimalDelta` (lines 443-490). -/
def optimalDelta (log10 pow10 : ℚ → ℚ) (s : HDMC) (deltaMin deltaMax : ℚ) :
    Option DeltaResult :=
  let trialDelta := trialDeltas log10 pow10 deltaMin deltaMax
  match trialLoop trialDelta 11 0 s (List.replicate 11 0) with
  | none => none
  | some (s1, trialProb) =>
    let lim := limitSelection log10 pow10 trialDelta trialProb s1.acceptTarget s1.transDelta
      deltaMin deltaMax
    match runCycles 10 { s1 with transDelta := lim.transDelta } 0 with
    | none => none
    | some (s2, accCount) =>
      some { state := s2, deltaMin := lim.deltaMin, deltaMax := lim.deltaMax,
             accProb := (accCount : ℚ) / (10 * (s2.n : ℚ)), optCode := lim.optCode }

/-! ## Properties of a configuration -/

/-- The three coordinate vectors have been allocated with `n` entries, as
`initialiseConfiguration` does (lines 137-139). -/
def Sized (s : HDMC) : Prop :=
  s.x.length = s.n ∧ s.y.length = s.n ∧ s.r.length = s.n

/-- Particles `i` and `j` overlap: their squared minimum-image distance is below
`(r_i+r_j)²`. -/
def Overlap (s : HDMC) (i j : Nat) : Prop :=
  distSq s (vget s.x i) (vget s.y i) (vget s.x j) (vget s.y j) < (vget s.r i + vget s.r j) ^ 2

/-- Hard-disk non-overlap: no pair of distinct particles overlaps. -/
def NonOverlapping (s : HDMC) : Prop :=
  ∀ i j, i < s.n → j < s.n → i ≠ j → ¬ Overlap s i j

/-- The coordinate `c` lies in the half-open folded interval `[-L/2, L/2)`. -/
def InHalfOpenCell (L c : ℚ) : Prop := -(L / 2) ≤ c ∧ c < L / 2

/-- Every stored coordinate lies in the half-open folded interval. -/
def Folded (s : HDMC) : Prop :=
  ∀ i, i < s.n → InHalfOpenCell s.cellLen (vget s.x i) ∧ InHalfOpenCell s.cellLen (vget s.y i)

/-- A chain of `k` consecutive calls of `mcAdditiveMove`, each starting from the state and
counter the previous one left. -/
inductive Attempts : Nat → HDMC × Int → HDMC × Int → Prop
  | done (p : HDMC × Int) : Attempts 0 p p
  | step {k : Nat} {p q t : HDMC × Int} :
      mcAdditiveMove p.1 p.2 = some q → Attempts k q t → Attempts (k + 1) p t

/-! ## A concrete configuration -/

/-- Two disks of radii 1 and 1/2 at `(0,0)` and `(3,0)` in a cell of length 10, with a
translation-only setting and a tape of draws that is long enough for one cycle. -/
def twoDisks : HDMC :=
  { n := 2, cellLen := 10, rCellLen := 1 / 10, cellLen_2 := 5,
    x := [0, 3], y := [0, 0], r := [1, 1 / 2],
    swapProb := 0, transProb := 1, transDelta := 1,
    mtGen := { ints := [0, 1, 0, 1],
               reals := [0, 1 / 2, 1 / 2, 0, 1 / 4, 3 / 4, 0, 1 / 2, 1 / 2, 0] } }

/-- The two-disk configuration with a zero translation step. -/
def twoDisksAtRest : HDMC := { twoDisks with transDelta := 0 }

/-- The two-disk configuration after `setParticles` with the non-additive interaction
code 1. -/
def twoDisksNonAdditive : HDMC := setParticles twoDisks 2 (1 / 10) 1 [1] 1

/-! ## Random sources that let a cycle complete -/

/-- A tape that carries `k` calls of `mcAdditiveMove` for `n` particles to completion: every
integer draw is a particle index, every real draw lies in `[0,1)`, there are two integer
and five real draws per call, and either `transProb ≥ 1` (no swap is ever chosen) or no
integer draw repeats its predecessor (the loop for the second particle of a swap stops at
its first draw). -/
def TapeSupplies (n : Nat) (transProb : ℚ) (g : MtGen) (k : Nat) : Prop :=
  (∀ d ∈ g.ints, d < n) ∧ (∀ u ∈ g.reals, 0 ≤ u ∧ u < 1) ∧
  (1 ≤ transProb ∨ g.ints.Chain' (fun a b => a ≠ b)) ∧
  2 * k ≤ g.ints.length ∧ 5 * k ≤ g.reals.length

/-! ## Values of the C library

`log10` and `pow(10,.)` are parameters of the model.  The two functions below hold the values
that the library returns on IEEE-754 doubles at the arguments of one call of the limit
selection, the call with the bounds `deltaMin = 0.01*0.5` and `deltaMax = 5`; each double is
written as the rational number it is.  At every other argument they are 0 and 1, which
stand for no value of the library; the two calls evaluated on these functions, with trial
acceptances `steepProbs` and with no move accepted, read none of them. -/

/-- Modelled from the spec: `vMinimum` of `vecf.h` (not among the sources), the smallest
entry of a vector; 0 for a vector without entries. -/
def vMinimum (v : List ℚ) : ℚ :=
  match v with
  | [] => 0
  | a :: t => t.foldl min a

/-- The four `break` statements of the convergence loop (lines 410-423). -/
inductive LoopExit
  | tooDense
  | tooDilute
  | converged
  | limitHit

/-- The variables that the convergence loop carries from one pass to the next (lines
404-407); `optCode` and `accProb` are assigned by the call of each pass before they are
read. -/
structure Calibration where
  state : HDMC
  deltaMin : ℚ
  deltaMax : ℚ
  iteration : Int

/-- How a run of the convergence loop ends: by a `break`, with the result of the last call
of the bracketing routine and the value of `iteration`; with a call of the bracketing
routine that has no result; or with the allowed number of passes used up. -/
inductive LoopResult
  | finished (last : DeltaResult) (iteration : Int) (exit : LoopExit)
  | stuck
  | unfinished

/-- The loop `while(!converged)` of `equilibration` (lines 408-425) for at most `fuel`
passes, each of which calls the bracketing routine once.  `converged` is never assigned, so
the loop is left only by a `break`. -/
def calibrationLoop (bracket : HDMC → ℚ → ℚ → Option DeltaResult) :
    Nat → Calibration → LoopResult
  | 0, _ => LoopResult.unfinished
  | fuel + 1, c =>
    match bracket c.state c.deltaMin c.deltaMax with
    | none => LoopResult.stuck
    | some res =>
      if res.optCode = some 1 ∧ c.iteration = 0 then
        LoopResult.finished res c.iteration LoopExit.tooDense
      else if res.optCode = some 2 ∧ c.iteration = 0 then
        LoopResult.finished res c.iteration LoopExit.tooDilute
      else if |res.accProb - res.state.acceptTarget| < 5 / 1000 then
        LoopResult.finished res c.iteration LoopExit.converged
      else if c.iteration > 100 then
        LoopResult.finished res c.iteration LoopExit.limitHit
      else
        calibrationLoop bracket fuel
          { state := res.state, deltaMin := res.deltaMin, deltaMax := res.deltaMax,
            iteration := c.iteration + 1 }

/-- The convergence loop as `equilibration` starts it (lines 402-409): `deltaMin` is
`0.01*vMinimum(r)`, `deltaMax` is `cellLen_2`, `iteration` is 0, and the bracketing routine
is `optimalDelta`. -/
def calibration (log10 pow10 : ℚ → ℚ) (fuel : Nat) (s : HDMC) : LoopResult :=
  calibrationLoop (optimalDelta log10 pow10) fuel
    { state := s, deltaMin := 1 / 100 * vMinimum s.r, deltaMax := s.cellLen_2,
      iteration := 0 }

/-- The two-disk configuration with interaction code 1 and acceptance target 1/2: no cycle
attempts a move, so every measured acceptance is 0. -/
def twoDisksIdle : HDMC := { twoDisksNonAdditive with acceptTarget := 1 / 2 }

/-! ## Initial configuration

The constant `M_PI`, the C library function `sqrt` and the minimiser of the soft potential
(`HLJ2DP`, `SteepestDescentArmijoMultiDim`, not among the sources) are parameters of the
model: `minimise s k xy` is the coordinate vector that the call `optimiser(potModel,xy)` of
schedule step `k` leaves. -/

/-- The inner loop of the overlap check of `resolvePositions` (lines 229-240) for particle
`i`, at index `j` with `k` iterations left: `resolved` becomes `false` at the first
overlapping `j`, where the loop is left. -/
def overlapInner (s : HDMC) (i : Nat) : Nat → Nat → Bool → Bool
  | 0, _, resolved => resolved
  | k + 1, j, resolved =>
    if distSq s (vget s.x i) (vget s.y i) (vget s.x j) (vget s.y j)
        < (vget s.r i + vget s.r j) ^ 2 then false
    else overlapInner s i k (j + 1) resolved

/-- The outer loop of the overlap check (lines 228-241), at index `i` with `k` iterations
left; it goes on after an overlap has been found. -/
def overlapOuter (s : HDMC) : Nat → Nat → Bool → Bool
  | 0, _, resolved => resolved
  | k + 1, i, resolved =>
    overlapOuter s k (i + 1) (overlapInner s i (s.n - (i + 1)) (i + 1) resolved)

/-- The overlap check at the end of `resolvePositions` (lines 225-243). -/
def overlapCheck (s : HDMC) : Bool :=
  overlapOuter s (s.n - 1) 0 true

/-- The loop of lines 187-190 that fills `xy[2*i]=x[i]`, `xy[2*i+1]=y[i]`, at index `i` with
`k` iterations left. -/
def packLoop (s : HDMC) : Nat → Nat → List ℚ → List ℚ
  | 0, _, xy => xy
  | k + 1, i, xy => packLoop s k (i + 1) ((xy.set (2 * i) (vget s.x i)).set (2 * i + 1) (vget s.y i))

/-- The schedule of lines 213-217: the minimiser is called for `k = 1, ..., 101`, each call
starting from the coordinates the previous one left; here at step `k` with `m` steps
left. -/
def scheduleLoop (minimise : HDMC → Nat → List ℚ → List ℚ) (s : HDMC) :
    Nat → Nat → List ℚ → List ℚ
  | 0, _, xy => xy
  | m + 1, k, xy => scheduleLoop minimise s m (k + 1) (minimise s k xy)

/-- The loop of lines 220-223 that writes `x[i]=xy[2*i]`, `y[i]=xy[2*i+1]`, at index `i`
with `k` iterations left. -/
def unpackLoop (xy : List ℚ) : Nat → Nat → HDMC → HDMC
  | 0, _, s => s
  | k + 1, i, s =>
    unpackLoop xy k (i + 1)
      { s with x := s.x.set i (vget xy (2 * i)), y := s.y.set i (vget xy (2 * i + 1)) }

/-- `HDMC::resolvePositions` (lines 182-244): the state with the relaxed coordinates and
the result of the overlap check on it. -/
def resolvePositions (minimise : HDMC → Nat → List ℚ → List ℚ) (s : HDMC) : HDMC × Bool :=
  let xy := scheduleLoop minimise s 101 1 (packLoop s s.n 0 (List.replicate (2 * s.n) 0))
  let s1 := unpackLoop xy s.n 0 s
  (s1, overlapCheck s1)

/-- Lines 136-148 of `initialiseConfiguration`: the three vectors are allocated with `n`
entries, the cell length and the two scalars derived from it are computed from the packing
fraction, and for mono dispersity (code 1) every radius is set to `dispersityParams[0]`. -/
def cellSetup (pi : ℚ) (sqrt : ℚ → ℚ) (s : HDMC) : HDMC :=
  let area := ((s.n : ℚ) * pi * vget s.dispersityParams 0 ^ 2) / s.phi
  let cellLen := sqrt area
  { s with
    x := List.replicate s.n 0, y := List.replicate s.n 0,
    r := if s.dispersity = 1 then List.replicate s.n (vget s.dispersityParams 0)
         else List.replicate s.n 0,
    cellLen := cellLen, rCellLen := 1 / cellLen, cellLen_2 := cellLen / 2 }

/-- The loop of lines 152-157 with `k` attempts left: a random placement, its relaxation
and check, until one attempt is resolved. -/
def attemptLoop (minimise : HDMC → Nat → List ℚ → List ℚ) : Nat → HDMC → Option (HDMC × Bool)
  | 0, s => some (s, false)
  | k + 1, s =>
    match generateRandomPositions s with
    | none => none
    | some s1 =>
      if (resolvePositions minimise s1).2 then some ((resolvePositions minimise s1).1, true)
      else attemptLoop minimise k (resolvePositions minimise s1).1

/-- `HDMC::initialiseConfiguration` (lines 130-166): the state it leaves and the code
`!resolved` it returns.  The log file is not modelled. -/
def initialiseConfiguration (pi : ℚ) (sqrt : ℚ → ℚ)
    (minimise : HDMC → Nat → List ℚ → List ℚ) (s : HDMC) : Option (HDMC × Int) :=
  match attemptLoop minimise 100 (cellSetup pi sqrt s) with
  | none => none
  | some (s1, resolved) => some (s1, if resolved then 0 else 1)

/-- A start state for `initialiseConfiguration`: two mono-disperse disks of radius 1 and
draws that place them at `(0,0)` and `(3,0)` in a cell of length 10. -/
def freshDisks : HDMC :=
  { n := 2, phi := 11 / 175, dispersity := 1, dispersityParams := [1],
    mtGen := { ints := [], reals := [0, 0, 3 / 10, 0] } }

/-- A minimiser that leaves the coordinates as they are. -/
def noRelaxation : HDMC → Nat → List ℚ → List ℚ := fun _ _ xy => xy

/-- The state `freshDisks` after the cell set-up with `sqrt` returning 10 and the placement
of its two disks. -/
def placedDisks : HDMC :=
  { n := 2, phi := 11 / 175, dispersity := 1, dispersityParams := [1],
    cellLen := 10, rCellLen := 1 / 10, cellLen_2 := 10 / 2,
    x := [0, 3], y := [0, 0], r := [1, 1],
    mtGen := { ints := [], reals := [] } }

/-- State `t` differs from state `s` at most in the vectors `x`, `y` and in the engine:
what a placement and its relaxation may change. -/
def Placed (s t : HDMC) : Prop :=
  t = { s with x := t.x, y := t.y, mtGen := t.mtGen }

/-! ## Analysis: the radial distribution histogram

The C library function `sqrt` and the tessellator (`Voronoi`, not among the sources) are
parameters of the model: `tessellate s` is the pair `(cellSizeDist, cellAdjDist)` that
`vor.analyse` returns for the configuration of `s`. -/

/-- Modelled from the spec: the read `v[i]` of a `VecF<int>` of `vecf.h` (not among the
sources). -/
def iget (v : List Int) (i : Nat) : Int := v.getD i 0

/-- Modelled from the spec: `operator+=` of `VecF<int>` in `vecf.h` (not among the
sources), the entry-wise sum of two vectors. -/
def vAdd (v w : List Int) : List Int := List.zipWith (fun a b => a + b) v w

/-- The minimum-image distance `d=sqrt(dSq)` of the pair `(i, j)` in `calculateRDF` (lines
534-539). -/
def pairDistance (sqrt : ℚ → ℚ) (s : HDMC) (i j : Nat) : ℚ :=
  sqrt (distSq s (vget s.x i) (vget s.y i) (vget s.x j) (vget s.y j))

/-- The body of the inner loop of `calculateRDF` (lines 534-543) for the pair `(i, j)`:
`rdfHist[floor(d/rdfDelta)]+=2` when `d<cellLen_2`. -/
def rdfPair (sqrt : ℚ → ℚ) (s : HDMC) (i j : Nat) : HDMC :=
  let d := pairDistance sqrt s i j
  if d < s.cellLen_2 then
    { s with rdfHist := s.rdfHist.set (⌊d / s.rdfDelta⌋).toNat
                          (iget s.rdfHist (⌊d / s.rdfDelta⌋).toNat + 2) }
  else s

/-- The inner loop `for(int j=i+1; j<n; ++j)` of `calculateRDF`, at index `j` with `k`
iterations left. -/
def rdfInner (sqrt : ℚ → ℚ) (i : Nat) : Nat → Nat → HDMC → HDMC
  | 0, _, s => s
  | k + 1, j, s => rdfInner sqrt i k (j + 1) (rdfPair sqrt s i j)

/-- The outer loop `for(int i=0; i<n-1; ++i)` of `calculateRDF`, at index `i` with `k`
iterations left. -/
def rdfOuter (sqrt : ℚ → ℚ) : Nat → Nat → HDMC → HDMC
  | 0, _, s => s
  | k + 1, i, s => rdfOuter sqrt k (i + 1) (rdfInner sqrt i (s.n - (i + 1)) (i + 1) s)

/-- `HDMC::calculateRDF` (lines 525-546). -/
def calculateRDF (sqrt : ℚ → ℚ) (s : HDMC) : HDMC :=
  rdfOuter sqrt (s.n - 1) 0 s

/-- The loop `for (int i = 0; i < cellAdjDist.n; ++i) vorAdjs[i] += cellAdjDist[i]` of
line 560, at index `i` with `k` iterations left. -/
def addAdjsLoop (cellAdjDist : List (List Int)) : Nat → Nat → List (List Int) → List (List Int)
  | 0, _, vorAdjs => vorAdjs
  | k + 1, i, vorAdjs =>
    addAdjsLoop cellAdjDist k (i + 1)
      (vorAdjs.set i (vAdd (vorAdjs.getD i []) (cellAdjDist.getD i [])))

/-- `HDMC::calculateVoronoi` (lines 549-566) on the members of the state: the
distributions of the tessellation are added to the running totals.  The row written to the
output file is not part of the state. -/
def calculateVoronoi (tessellate : HDMC → List Int × List (List Int)) (s : HDMC) : HDMC :=
  { s with vorSizes := vAdd s.vorSizes (tessellate s).1,
           vorAdjs := addAdjsLoop (tessellate s).2 (tessellate s).2.length 0 s.vorAdjs }

/-- `HDMC::analyseConfiguration` (lines 515-522). -/
def analyseConfiguration (sqrt : ℚ → ℚ) (tessellate : HDMC → List Int × List (List Int))
    (s : HDMC) : HDMC :=
  let s1 := if s.rdfCalc then calculateRDF sqrt s else s
  let s2 := if s1.vorCalc then calculateVoronoi tessellate s1 else s1
  { s2 with analysisConfigs := s2.analysisConfigs + 1 }

/-- The pairs that the inner loop of `calculateRDF` visits for particle `i`, in the order
of the visits. -/
def pairsInner (i : Nat) : Nat → Nat → List (Nat × Nat)
  | 0, _ => []
  | k + 1, j => (i, j) :: pairsInner i k (j + 1)

/-- The pairs that the loops of `calculateRDF` visit from index `i` of the outer loop on,
in the order of the visits. -/
def pairsOuter (n : Nat) : Nat → Nat → List (Nat × Nat)
  | 0, _ => []
  | k + 1, i => pairsInner i (n - (i + 1)) (i + 1) ++ pairsOuter n k (i + 1)

/-- The pairs that `calculateRDF` visits for `n` particles, in the order of the visits. -/
def visitedPairs (n : Nat) : List (Nat × Nat) := pairsOuter n (n - 1) 0

/-- State `t` differs from state `s` at most in the entries of the histogram `rdfHist`,
which has kept its length: what `calculateRDF` may change. -/
def Binned (s t : HDMC) : Prop :=
  t = { s with rdfHist := t.rdfHist } ∧ t.rdfHist.length = s.rdfHist.length

/-- A stand-in for `sqrt` on the rationals: the integer square roots of numerator and
denominator; exact on the square of a rational, and never negative. -/
def sqrtFloor (a : ℚ) : ℚ := (Nat.sqrt a.num.toNat : ℚ) / (Nat.sqrt a.den : ℚ)

/-- The two-disk configuration with the radial distribution histogram switched on: bin
width 1 and `floor(5/1)+1 = 6` bins. -/
def twoDisksRdf : HDMC :=
  { twoDisks with rdfCalc := true, rdfDelta := 1, rdfHist := [0, 0, 0, 0, 0, 0] }

/-- A tessellator that reports no cell. -/
def noCells : HDMC → List Int × List (List Int) := fun _ => ([], [])

/-! ## Analysis: the network analysis of a tessellation -/

/-- Modelled from the spec: `std::string::substr(0,k)` of the C++ standard library, the first
`k` characters of the string, or the whole string when it is shorter. -/
def substr0 (s : List Char) (k : Nat) : List Char := s.take k

/-- The dispersity block of `main` (lines 40-49): `dispCode` after the token `disp`. -/
def readDispersity (disp : List Char) : Except String (Option Int) :=
  if substr0 disp 2 = ['b', 'i'] then Except.ok none
  else if substr0 disp 4 = ['m', 'o', 'n', 'o'] then Except.ok (some 1)
  else if substr0 disp 4 = ['p', 'o', 'l', 'y'] then Except.ok none
  else Except.error "Error reading particle dispersity code"

/-- The interaction block of `main` (lines 52-59): `intCode` after the token `interaction`.
The block has no final `else`. -/
def readInteraction (interaction : List Char) : Except String (Option Int) :=
  if substr0 interaction 3 = ['a', 'd', 'd'] then Except.ok (some 0)
  else if substr0 interaction 3 = ['n', 'o', 'n', 'a', 'd', 'd'] then Except.ok (some 1)
  else Except.ok none

/-! ## The simulation driver: the cycle loops of `equilibration` and `production`

The C++ operators `/` and `%` on `int` truncate towards zero, and `i % 0` is undefined.  The
members `xyzWrite`, `xyzWriteFreq` and `analysisFreq`, which nothing else in the model reads,
are parameters of the production loop; `writeXYZ` writes a file and leaves the state as it
is. -/

/-- The C++ expression `a % b` on `int`: no value when `b` is 0. -/
def cMod (a b : Int) : Option Int := if b = 0 then none else some (Int.tmod a b)

/-- The three cadences of the cycle loops. -/
inductive Cadence
  | log
  | xyz
  | analysis
  deriving DecidableEq

/-- How a cycle loop ends: it evaluates `i % 0` in cycle `i` for one of the cadences, the
random tape runs out, or the loop runs through and leaves a state, `accCount` and the list
of logged pairs `(i, double(accCount)/(i*n))`. -/
inductive CycleResult
  | undefinedModulo (i : Int) (cadence : Cadence)
  | stuck
  | finished (state : HDMC) (accCount : Int) (logged : List (Int × ℚ))

/-- The logged value `double(accCount)/(i*n)`. -/
def acceptance (accCount i : Int) (n : Nat) : ℚ :=
  (accCount : ℚ) / ((i * (n : Int) : Int) : ℚ)

/-- The loop `for (int i = 1; i<=eqCycles; ++i)` of `equilibration` (lines 434-437) in cycle
`i` with `k` cycles left. -/
def equilibrationLoop (logMoves : Int) :
    Nat → Int → HDMC → Int → List (Int × ℚ) → CycleResult
  | 0, _, s, accCount, logged => CycleResult.finished s accCount logged
  | k + 1, i, s, accCount, logged =>
    match mcCycle s with
    | none => CycleResult.stuck
    | some (s1, c) =>
      match cMod i logMoves with
      | none => CycleResult.undefinedModulo i Cadence.log
      | some m =>
        equilibrationLoop logMoves k (i + 1) s1 (accCount + c)
          (if m = 0 then logged ++ [(i, acceptance (accCount + c) i s1.n)] else logged)

/-- The last part of `HDMC::equilibration` (lines 432-437): `logMoves=eqCycles/100`,
`accCount=0` and the cycle loop. -/
def equilibrationCycles (s : HDMC) : CycleResult :=
  equilibrationLoop (Int.tdiv s.eqCycles 100) s.eqCycles.toNat 1 s 0 []

/-- The loop `for (int i = 1; i<=prodCycles; ++i)` of `production` (lines 501-506) in cycle
`i` with `k` cycles left.  The test `xyzWrite && i%xyzWriteFreq==0` evaluates its modulo
only when `xyzWrite` is set. -/
def productionLoop (sqrt : ℚ → ℚ) (tessellate : HDMC → List Int × List (List Int))
    (xyzWrite : Bool) (xyzWriteFreq analysisFreq logMoves : Int) :
    Nat → Int → HDMC → Int → List (Int × ℚ) → CycleResult
  | 0, _, s, accCount, logged => CycleResult.finished s accCount logged
  | k + 1, i, s, accCount, logged =>
    match mcCycle s with
    | none => CycleResult.stuck
    | some (s1, c) =>
      match cMod i logMoves with
      | none => CycleResult.undefinedModulo i Cadence.log
      | some m =>
        match (if xyzWrite then cMod i xyzWriteFreq else some 1) with
        | none => CycleResult.undefinedModulo i Cadence.xyz
        | some _ =>
          match cMod i analysisFreq with
          | none => CycleResult.undefinedModulo i Cadence.analysis
          | some a =>
            productionLoop sqrt tessellate xyzWrite xyzWriteFreq analysisFreq logMoves k
              (i + 1) (if a = 0 then analyseConfiguration sqrt tessellate s1 else s1)
              (accCount + c)
              (if m = 0 then logged ++ [(i, acceptance (accCount + c) i s1.n)] else logged)

/-- `HDMC::production` (lines 494-509): `logMoves=prodCycles/100`, `accCount=0` and the
cycle loop. -/
def production (sqrt : ℚ → ℚ) (tessellate : HDMC → List Int × List (List Int))
    (xyzWrite : Bool) (xyzWriteFreq analysisFreq : Int) (s : HDMC) : CycleResult :=
  productionLoop sqrt tessellate xyzWrite xyzWriteFreq analysisFreq
    (Int.tdiv s.prodCycles 100) s.prodCycles.toNat 1 s 0 []

/-- The two-disk configuration after `setSimulation` with 50 equilibration cycles, 50
production cycles, swap probability 0 and acceptance target 1/2. -/
def fiftyCycles : HDMC := setSimulation twoDisks 50 50 0 (1 / 2)

/-! # Theorems -/

/-! ## Rounding and folding -/

theorem nearbyint_cases (q : ℚ) :
    |q - nearbyint q| < 1 / 2 ∨ (|q - nearbyint q| = 1 / 2 ∧ nearbyint q % 2 = 0) := by
  unfold nearbyint
  have h0 : ((⌊q⌋ : ℤ) : ℚ) ≤ q := Int.floor_le q
  have h1 : q < ⌊q⌋ + 1 := Int.lt_floor_add_one q
  simp only []
  split_ifs with ha hb hc
  · left; rw [abs_lt]; constructor <;> linarith
  · left; rw [abs_lt]; push_cast; constructor <;> linarith
  · right
    have hd : q - ⌊q⌋ = 1 / 2 := le_antisymm (not_lt.mp hb) (not_lt.mp ha)
    refine ⟨?_, hc⟩
    rw [hd]; norm_num
  · right
    have hd : q - ⌊q⌋ = 1 / 2 := le_antisymm (not_lt.mp hb) (not_lt.mp ha)
    constructor
    · push_cast
      rw [show q - ((⌊q⌋ : ℚ) + 1) = -(1 / 2) by linarith]; norm_num
    · omega

/-- An integer within one half of `q`, even when exactly one half away, is `nearbyint q`. -/
theorem nearbyint_eq_of (q : ℚ) (k : ℤ)
    (h : |q - k| < 1 / 2 ∨ (|q - k| = 1 / 2 ∧ k % 2 = 0)) : nearbyint q = k := by
  have hm := nearbyint_cases q
  generalize nearbyint q = m at hm
  have bound : ∀ a b : ℤ, |q - a| < 1 / 2 → |q - b| ≤ 1 / 2 → a = b := by
    intro a b ha hb
    rw [abs_lt] at ha
    rw [abs_le] at hb
    have h1 : (a : ℚ) < b + 1 := by linarith
    have h2 : (b : ℚ) < a + 1 := by linarith
    have h3 : a < b + 1 := by exact_mod_cast h1
    have h4 : b < a + 1 := by exact_mod_cast h2
    omega
  rcases hm with hm | ⟨hm, em⟩
  · rcases h with h | ⟨h, _⟩
    · exact bound m k hm h.le
    · exact bound m k hm h.le
  · rcases h with h | ⟨h, ek⟩
    · exact (bound k m h hm.le).symm
    · have hm2 := hm.le
      have hk2 := h.le
      rw [abs_le] at hm2 hk2
      have h1 : (m : ℚ) ≤ k + 1 := by linarith
      have h2 : (k : ℚ) ≤ m + 1 := by linarith
      have h3 : m ≤ k + 1 := by exact_mod_cast h1
      have h4 : k ≤ m + 1 := by exact_mod_cast h2
      omega

theorem nearbyint_neg (q : ℚ) : nearbyint (-q) = -nearbyint q := by
  apply nearbyint_eq_of
  have h := nearbyint_cases q
  have e : -q - ((-nearbyint q : ℤ) : ℚ) = -(q - nearbyint q) := by push_cast; ring
  rw [e, abs_neg]
  rcases h with h | ⟨h, he⟩
  · exact Or.inl h
  · exact Or.inr ⟨h, by omega⟩

theorem nearbyint_eq_zero (q : ℚ) (h : |q| ≤ 1 / 2) : nearbyint q = 0 := by
  apply nearbyint_eq_of
  rcases lt_or_eq_of_le h with h | h
  · left; simpa using h
  · right; simpa using h

theorem wrap_neg (L rL u : ℚ) : wrap L rL (-u) = -wrap L rL u := by
  unfold wrap
  rw [neg_mul, nearbyint_neg]; push_cast; ring

theorem wrap_of_abs_le (L u : ℚ) (hL : 0 < L) (h : |u| ≤ L / 2) : wrap L (1 / L) u = u := by
  unfold wrap
  have h0 : nearbyint (u * (1 / L)) = 0 := by
    apply nearbyint_eq_zero
    rw [abs_mul, abs_of_pos (one_div_pos.mpr hL), mul_one_div, div_le_iff₀ hL]
    linarith
  rw [h0]; simp

theorem distSq_symm (s : HDMC) (x1 y1 x2 y2 : ℚ) :
    distSq s x1 y1 x2 y2 = distSq s x2 y2 x1 y1 := by
  unfold distSq
  have hx : wrap s.cellLen s.rCellLen (x2 - x1) = -wrap s.cellLen s.rCellLen (x1 - x2) := by
    rw [← wrap_neg]; congr 1; ring
  have hy : wrap s.cellLen s.rCellLen (y2 - y1) = -wrap s.cellLen s.rCellLen (y1 - y2) := by
    rw [← wrap_neg]; congr 1; ring
  simp only [hx, hy]; ring

/-! ## Vectors -/

theorem vget_set_eq (v : List ℚ) (i : Nat) (a : ℚ) (h : i < v.length) :
    vget (v.set i a) i = a := by
  simp [vget, List.getD_eq_getElem?_getD, h]

theorem vget_set_ne (v : List ℚ) (i j : Nat) (a : ℚ) (h : i ≠ j) :
    vget (v.set i a) j = vget v j := by
  simp [vget, List.getD_eq_getElem?_getD, List.getElem?_set_ne h]

/-! ## The overlap tests -/

theorem translationCheck_iff (s : HDMC) (pI : Nat) (xI yI rI : ℚ) :
    translationCheck s pI xI yI rI = true ↔
      ∀ k, k < s.n → k ≠ pI →
        (rI + vget s.r k) ^ 2 ≤ distSq s xI yI (vget s.x k) (vget s.y k) := by
  simp only [translationCheck, List.all_eq_true, List.mem_range, Bool.not_eq_true',
    Bool.and_eq_false_iff, decide_eq_false_iff_not, not_lt, not_not, ne_eq]
  constructor
  · intro h k hk hne
    rcases h k hk with h1 | h1
    · exact h1
    · exact absurd h1 hne
  · intro h k hk
    by_cases hne : k = pI
    · exact Or.inr hne
    · exact Or.inl (h k hk hne)

theorem swapCheck_iff (s : HDMC) (pI pJ : Nat) (xP yP rP : ℚ) :
    swapCheck s pI pJ xP yP rP = true ↔
      ∀ k, k < s.n → k ≠ pI → k ≠ pJ →
        (rP + vget s.r k) ^ 2 ≤ distSq s xP yP (vget s.x k) (vget s.y k) := by
  simp only [swapCheck, List.all_eq_true, List.mem_range, Bool.not_eq_true',
    Bool.and_eq_false_iff, decide_eq_false_iff_not, not_lt, not_not, ne_eq]
  constructor
  · intro h k hk hne1 hne2
    rcases h k hk with (h1 | h1) | h1
    · exact h1
    · exact absurd h1 hne1
    · exact absurd h1 hne2
  · intro h k hk
    by_cases hne1 : k = pI
    · exact Or.inl (Or.inr hne1)
    · by_cases hne2 : k = pJ
      · exact Or.inr hne2
      · exact Or.inl (Or.inl (h k hk hne1 hne2))

theorem swapAccept_iff (s : HDMC) (pI pJ : Nat) (xI yI rI xJ yJ rJ : ℚ) :
    swapAccept s pI pJ xI yI rI xJ yJ rJ = true ↔
      (rI + rJ) ^ 2 ≤ distSq s xI yI xJ yJ ∧
      (∀ k, k < s.n → k ≠ pI → k ≠ pJ →
        (rI + vget s.r k) ^ 2 ≤ distSq s xI yI (vget s.x k) (vget s.y k)) ∧
      (∀ k, k < s.n → k ≠ pI → k ≠ pJ →
        (rJ + vget s.r k) ^ 2 ≤ distSq s xJ yJ (vget s.x k) (vget s.y k)) := by
  simp only [swapAccept, Bool.and_eq_true, swapCheck_iff, Bool.not_eq_true',
    decide_eq_false_iff_not, not_lt, and_assoc]

/-! ## The translation branch -/

theorem overlap_symm (s : HDMC) (i j : Nat) : Overlap s i j ↔ Overlap s j i := by
  unfold Overlap
  rw [distSq_symm s (vget s.x i), add_comm (vget s.r i)]

theorem translationCommit_accept (s : HDMC) (pI : Nat) (xI yI : ℚ) (counter : Int)
    (h : translationCheck s pI xI yI (vget s.r pI) = true) :
    translationCommit s pI xI yI counter
      = ({ s with x := s.x.set pI xI, y := s.y.set pI yI }, counter + 1) := by
  simp [translationCommit, h]

theorem translationCommit_reject (s : HDMC) (pI : Nat) (xI yI : ℚ) (counter : Int)
    (h : ¬ translationCheck s pI xI yI (vget s.r pI) = true) :
    translationCommit s pI xI yI counter = (s, counter) := by
  simp [translationCommit, h]

/-- Claim C2: in the translation branch, the proposed position `(xI, yI)` of particle `pI`
is accepted exactly when every other particle `k` is at squared minimum-image distance at
least `(r_pI + r_k)²` from it (equality is accepted).  On acceptance the counter grows by
one, slot `pI` of `x` and of `y` holds the proposal, and nothing else in the state changes;
on rejection the state and the counter are returned as they were. -/
theorem translation_decision (s : HDMC) (pI : Nat) (xI yI : ℚ) (counter : Int)
    (hs : Sized s) (hp : pI < s.n) :
    (translationCheck s pI xI yI (vget s.r pI) = true ↔
      ∀ k, k < s.n → k ≠ pI →
        (vget s.r pI + vget s.r k) ^ 2 ≤ distSq s xI yI (vget s.x k) (vget s.y k)) ∧
    (translationCheck s pI xI yI (vget s.r pI) = true →
      (translationCommit s pI xI yI counter).2 = counter + 1 ∧
      vget (translationCommit s pI xI yI counter).1.x pI = xI ∧
      vget (translationCommit s pI xI yI counter).1.y pI = yI ∧
      (∀ k, k ≠ pI →
        vget (translationCommit s pI xI yI counter).1.x k = vget s.x k ∧
        vget (translationCommit s pI xI yI counter).1.y k = vget s.y k) ∧
      (translationCommit s pI xI yI counter).1
        = { s with x := (translationCommit s pI xI yI counter).1.x,
                   y := (translationCommit s pI xI yI counter).1.y }) ∧
    (¬ translationCheck s pI xI yI (vget s.r pI) = true →
      translationCommit s pI xI yI counter = (s, counter)) := by
  refine ⟨translationCheck_iff s pI xI yI _, ?_, translationCommit_reject s pI xI yI counter⟩
  intro h
  rw [translationCommit_accept s pI xI yI counter h]
  refine ⟨rfl, ?_, ?_, ?_, rfl⟩
  · exact vget_set_eq _ _ _ (by rw [hs.1]; exact hp)
  · exact vget_set_eq _ _ _ (by rw [hs.2.1]; exact hp)
  · intro k hk
    exact ⟨vget_set_ne _ _ _ _ (Ne.symm hk), vget_set_ne _ _ _ _ (Ne.symm hk)⟩

theorem translationCommit_frame (s : HDMC) (pI : Nat) (xI yI : ℚ) (counter : Int) :
    (translationCommit s pI xI yI counter).1.n = s.n ∧
    (translationCommit s pI xI yI counter).1.r = s.r ∧
    (translationCommit s pI xI yI counter).1.cellLen = s.cellLen ∧
    (translationCommit s pI xI yI counter).1.rCellLen = s.rCellLen ∧
    (translationCommit s pI xI yI counter).1.mtGen = s.mtGen ∧
    (translationCommit s pI xI yI counter).1.transProb = s.transProb ∧
    (translationCommit s pI xI yI counter).1.transDelta = s.transDelta ∧
    (translationCommit s pI xI yI counter).1.interaction = s.interaction := by
  unfold translationCommit
  split_ifs <;> simp

theorem translationCommit_sized (s : HDMC) (pI : Nat) (xI yI : ℚ) (counter : Int)
    (hs : Sized s) : Sized (translationCommit s pI xI yI counter).1 := by
  unfold translationCommit
  split_ifs
  · simpa [Sized] using hs
  · exact hs

theorem translationCommit_nonOverlapping (s : HDMC) (pI : Nat) (xI yI : ℚ) (counter : Int)
    (hs : Sized s) (hp : pI < s.n) (hno : NonOverlapping s) :
    NonOverlapping (translationCommit s pI xI yI counter).1 := by
  by_cases h : translationCheck s pI xI yI (vget s.r pI) = true
  · rw [translationCommit_accept s pI xI yI counter h]
    have hc := (translationCheck_iff s pI xI yI _).mp h
    have hx : pI < s.x.length := by rw [hs.1]; exact hp
    have hy : pI < s.y.length := by rw [hs.2.1]; exact hp
    have key : ∀ j, j < s.n → j ≠ pI →
        ¬ Overlap { s with x := s.x.set pI xI, y := s.y.set pI yI } pI j := by
      intro j hj hne
      have h1 := hc j hj hne
      simp only [Overlap, vget_set_eq _ _ _ hx, vget_set_eq _ _ _ hy,
        vget_set_ne _ _ _ _ (Ne.symm hne)]
      exact not_lt.mpr h1
    intro i j hi hj hij
    by_cases hi1 : i = pI
    · subst hi1; exact key j hj (Ne.symm hij)
    · by_cases hj1 : j = pI
      · subst hj1; rw [overlap_symm]; exact key i hi hi1
      · have h0 := hno i j hi hj hij
        simp only [Overlap, vget_set_ne _ _ _ _ (Ne.symm hi1),
          vget_set_ne _ _ _ _ (Ne.symm hj1)]
        exact h0
  · rw [translationCommit_reject s pI xI yI counter h]; exact hno

/-! ## The swap branch -/

theorem swapCommit_accept (s : HDMC) (pI pJ : Nat) (xI yI rI xJ yJ rJ : ℚ) (counter : Int)
    (h : swapAccept s pI pJ xI yI rI xJ yJ rJ = true) :
    swapCommit s pI pJ xI yI rI xJ yJ rJ counter
      = ({ s with x := (s.x.set pI xI).set pJ xJ,
                  y := (s.y.set pI yI).set pJ yJ,
                  r := (s.r.set pI rI).set pJ rJ }, counter + 1) := by
  simp [swapCommit, h]

theorem swapCommit_reject (s : HDMC) (pI pJ : Nat) (xI yI rI xJ yJ rJ : ℚ) (counter : Int)
    (h : ¬ swapAccept s pI pJ xI yI rI xJ yJ rJ = true) :
    swapCommit s pI pJ xI yI rI xJ yJ rJ counter = (s, counter) := by
  simp [swapCommit, h]

theorem vget_set_set_fst (v : List ℚ) (i j : Nat) (a b : ℚ) (hi : i < v.length)
    (hij : i ≠ j) : vget ((v.set i a).set j b) i = a := by
  rw [vget_set_ne _ _ _ _ (Ne.symm hij), vget_set_eq _ _ _ hi]

theorem vget_set_set_snd (v : List ℚ) (i j : Nat) (a b : ℚ) (hj : j < v.length) :
    vget ((v.set i a).set j b) j = b :=
  vget_set_eq _ _ _ (by simpa using hj)

theorem vget_set_set_other (v : List ℚ) (i j k : Nat) (a b : ℚ) (hi : k ≠ i) (hj : k ≠ j) :
    vget ((v.set i a).set j b) k = vget v k := by
  rw [vget_set_ne _ _ _ _ (Ne.symm hj), vget_set_ne _ _ _ _ (Ne.symm hi)]

/-- Putting `a` into slot `j` and the old content of slot `j` in front rearranges
`a :: v`. -/
theorem perm_cons_set (v : List ℚ) (j : Nat) (a : ℚ) (hj : j < v.length) :
    (vget v j :: v.set j a).Perm (a :: v) := by
  induction v generalizing j with
  | nil => simp at hj
  | cons b t ih =>
    cases j with
    | zero => simpa [vget] using List.Perm.swap a b t
    | succ j =>
      have hj2 : j < t.length := by simpa using hj
      have h1 : vget (b :: t) (j + 1) = vget t j := by simp [vget]
      rw [h1, List.set_cons_succ]
      exact ((List.Perm.swap b (vget t j) (t.set j a)).trans
        ((ih j hj2).cons b)).trans (List.Perm.swap a b t)

/-- Exchanging the contents of two slots of a vector rearranges it. -/
theorem perm_exchange (v : List ℚ) (i j : Nat) (hi : i < v.length) (hj : j < v.length) :
    ((v.set i (vget v j)).set j (vget v i)).Perm v := by
  induction v generalizing i j with
  | nil => simp at hi
  | cons b t ih =>
    cases i with
    | zero =>
      cases j with
      | zero => simp [vget]
      | succ j =>
        have hj2 : j < t.length := by simpa using hj
        have h1 : vget (b :: t) (j + 1) = vget t j := by simp [vget]
        have h2 : vget (b :: t) 0 = b := by simp [vget]
        rw [h1, h2, List.set_cons_zero, List.set_cons_succ]
        exact perm_cons_set t j b hj2
    | succ i =>
      have hi2 : i < t.length := by simpa using hi
      cases j with
      | zero =>
        have h1 : vget (b :: t) (i + 1) = vget t i := by simp [vget]
        have h2 : vget (b :: t) 0 = b := by simp [vget]
        rw [h1, h2, List.set_cons_succ, List.set_cons_zero]
        exact perm_cons_set t i b hi2
      | succ j =>
        have hj2 : j < t.length := by simpa using hj
        have h1 : vget (b :: t) (i + 1) = vget t i := by simp [vget]
        have h2 : vget (b :: t) (j + 1) = vget t j := by simp [vget]
        rw [h1, h2, List.set_cons_succ, List.set_cons_succ]
        exact (ih i j hi2 hj2).cons b

/-- Claim C3: in the swap branch for particles `pI ≠ pJ`, proposal I is built from slot `pJ`
and proposal J from slot `pI`, each displaced and folded; the two proposals are accepted
exactly when they do not overlap each other and neither overlaps a particle outside
`{pI, pJ}`.  On acceptance the counter grows by one, slot `pI` holds proposal I and slot
`pJ` holds proposal J (position and radius), every other slot is untouched, the two radii
are exchanged and the radii are a rearrangement of the old ones; on rejection nothing
changes. -/
theorem swap_decision (s : HDMC) (pI pJ : Nat) (u1 v1 u2 v2 : ℚ) (counter : Int)
    (hs : Sized s) (hpI : pI < s.n) (hpJ : pJ < s.n) (hne : pI ≠ pJ) :
    swapMove s pI pJ u1 v1 u2 v2 counter
      = swapCommit s pI pJ
          (wrap s.cellLen s.rCellLen (vget s.x pJ + s.transDelta * (2 * u1 - 1)))
          (wrap s.cellLen s.rCellLen (vget s.y pJ + s.transDelta * (2 * v1 - 1)))
          (vget s.r pJ)
          (wrap s.cellLen s.rCellLen (vget s.x pI + s.transDelta * (2 * u2 - 1)))
          (wrap s.cellLen s.rCellLen (vget s.y pI + s.transDelta * (2 * v2 - 1)))
          (vget s.r pI) counter ∧
    ∀ xI yI xJ yJ : ℚ,
      (swapAccept s pI pJ xI yI (vget s.r pJ) xJ yJ (vget s.r pI) = true ↔
        (vget s.r pJ + vget s.r pI) ^ 2 ≤ distSq s xI yI xJ yJ ∧
        (∀ k, k < s.n → k ≠ pI → k ≠ pJ →
          (vget s.r pJ + vget s.r k) ^ 2 ≤ distSq s xI yI (vget s.x k) (vget s.y k)) ∧
        (∀ k, k < s.n → k ≠ pI → k ≠ pJ →
          (vget s.r pI + vget s.r k) ^ 2 ≤ distSq s xJ yJ (vget s.x k) (vget s.y k))) ∧
      (swapAccept s pI pJ xI yI (vget s.r pJ) xJ yJ (vget s.r pI) = true →
        ∀ s1 c1, swapCommit s pI pJ xI yI (vget s.r pJ) xJ yJ (vget s.r pI) counter = (s1, c1) →
          c1 = counter + 1 ∧
          vget s1.x pI = xI ∧ vget s1.y pI = yI ∧ vget s1.r pI = vget s.r pJ ∧
          vget s1.x pJ = xJ ∧ vget s1.y pJ = yJ ∧ vget s1.r pJ = vget s.r pI ∧
          (∀ k, k ≠ pI → k ≠ pJ →
            vget s1.x k = vget s.x k ∧ vget s1.y k = vget s.y k ∧ vget s1.r k = vget s.r k) ∧
          s1.r.Perm s.r ∧
          s1 = { s with x := s1.x, y := s1.y, r := s1.r }) ∧
      (¬ swapAccept s pI pJ xI yI (vget s.r pJ) xJ yJ (vget s.r pI) = true →
        swapCommit s pI pJ xI yI (vget s.r pJ) xJ yJ (vget s.r pI) counter = (s, counter)) := by
  refine ⟨rfl, fun xI yI xJ yJ => ⟨swapAccept_iff s pI pJ xI yI _ xJ yJ _, ?_,
    swapCommit_reject s pI pJ xI yI _ xJ yJ _ counter⟩⟩
  intro h s1 c1 hres
  rw [swapCommit_accept s pI pJ xI yI _ xJ yJ _ counter h] at hres
  obtain ⟨hs1, hc1⟩ := Prod.mk.inj hres
  subst hs1
  have hx : pI < s.x.length := by rw [hs.1]; exact hpI
  have hy : pI < s.y.length := by rw [hs.2.1]; exact hpI
  have hr : pI < s.r.length := by rw [hs.2.2]; exact hpI
  have hx2 : pJ < s.x.length := by rw [hs.1]; exact hpJ
  have hy2 : pJ < s.y.length := by rw [hs.2.1]; exact hpJ
  have hr2 : pJ < s.r.length := by rw [hs.2.2]; exact hpJ
  refine ⟨hc1.symm, vget_set_set_fst _ _ _ _ _ hx hne, vget_set_set_fst _ _ _ _ _ hy hne,
    vget_set_set_fst _ _ _ _ _ hr hne, vget_set_set_snd _ _ _ _ _ hx2,
    vget_set_set_snd _ _ _ _ _ hy2, vget_set_set_snd _ _ _ _ _ hr2, ?_, ?_, rfl⟩
  · intro k hk1 hk2
    exact ⟨vget_set_set_other _ _ _ _ _ _ hk1 hk2, vget_set_set_other _ _ _ _ _ _ hk1 hk2,
      vget_set_set_other _ _ _ _ _ _ hk1 hk2⟩
  · exact perm_exchange s.r pI pJ hr hr2

/-! ## The random draws of one move -/

theorem rand01_some (g g1 : MtGen) (u : ℚ) (h : rand01 g = some (u, g1)) :
    0 ≤ u ∧ u < 1 ∧ g.reals = u :: g1.reals ∧ g1.ints = g.ints := by
  unfold rand01 at h
  split at h
  · exact absurd h (by simp)
  · rename_i u0 rest heq
    split_ifs at h with hu
    simp only [Option.some.injEq, Prod.mk.injEq] at h
    obtain ⟨h1, h2⟩ := h
    subst h1 h2
    exact ⟨hu.1, hu.2, heq, rfl⟩

theorem randParticle_some (n : Nat) (g g1 : MtGen) (p : Nat)
    (h : randParticle n g = some (p, g1)) :
    p < n ∧ g.ints = p :: g1.ints ∧ g1.reals = g.reals := by
  unfold randParticle at h
  split at h
  · exact absurd h (by simp)
  · rename_i d rest heq
    split_ifs at h with hd
    simp only [Option.some.injEq, Prod.mk.injEq] at h
    obtain ⟨h1, h2⟩ := h
    subst h1 h2
    exact ⟨hd, heq, rfl⟩

theorem secondParticleLoop_some (n pI : Nat) (l rest : List Nat) (pJ : Nat)
    (h : secondParticleLoop n pI l = some (pJ, rest)) :
    pJ < n ∧ pI ≠ pJ ∧ rest.length < l.length := by
  induction l with
  | nil => simp [secondParticleLoop] at h
  | cons d t ih =>
    unfold secondParticleLoop at h
    split_ifs at h with hd he
    · obtain ⟨h1, h2, h3⟩ := ih h
      exact ⟨h1, h2, by simp only [List.length_cons]; omega⟩
    · simp only [Option.some.injEq, Prod.mk.injEq] at h
      obtain ⟨h1, h2⟩ := h
      subst h1 h2
      exact ⟨hd, he, by simp⟩

theorem secondParticle_some (n pI : Nat) (g g1 : MtGen) (pJ : Nat)
    (h : secondParticle n pI g = some (pJ, g1)) :
    pJ < n ∧ pI ≠ pJ ∧ g1.reals = g.reals ∧ g1.ints.length < g.ints.length := by
  unfold secondParticle at h
  split at h
  · exact absurd h (by simp)
  · rename_i p rest heq
    simp only [Option.some.injEq, Prod.mk.injEq] at h
    obtain ⟨h1, h2⟩ := h
    subst h1 h2
    obtain ⟨h3, h4, h5⟩ := secondParticleLoop_some n pI _ _ _ heq
    exact ⟨h3, h4, rfl, h5⟩

/-- Every completed call of `mcAdditiveMove` is one run of the translation branch, entered
on a draw below `transProb`, or one run of the swap branch for two distinct particles,
entered on a draw not below `transProb`; the branch runs on the state whose engine has
moved past the draws of the call, at least one integer draw among them. -/
theorem mcAdditiveMove_cases (s : HDMC) (counter : Int) (res : HDMC × Int)
    (h : mcAdditiveMove s counter = some res) :
    (∃ (pI : Nat) (b u v : ℚ) (g : MtGen), pI < s.n ∧ b < s.transProb ∧
        g.ints.length < s.mtGen.ints.length ∧
        res = translationMove { s with mtGen := g } pI u v counter) ∨
    (∃ (pI pJ : Nat) (b u1 v1 u2 v2 : ℚ) (g : MtGen), pI < s.n ∧ pJ < s.n ∧ pI ≠ pJ ∧
        b < 1 ∧ ¬ b < s.transProb ∧ g.ints.length < s.mtGen.ints.length ∧
        res = swapMove { s with mtGen := g } pI pJ u1 v1 u2 v2 counter) := by
  unfold mcAdditiveMove at h
  split at h
  · exact absurd h (by simp)
  · rename_i pI g1 h1
    obtain ⟨hp, hi1, _⟩ := randParticle_some _ _ _ _ h1
    split at h
    · exact absurd h (by simp)
    · rename_i b g2 h2
      obtain ⟨_, hb, _, hi2⟩ := rand01_some _ _ _ h2
      split_ifs at h with hbr
      · split at h
        · exact absurd h (by simp)
        · rename_i u g3 h3
          obtain ⟨_, _, _, hi3⟩ := rand01_some _ _ _ h3
          split at h
          · exact absurd h (by simp)
          · rename_i v g4 h4
            obtain ⟨_, _, _, hi4⟩ := rand01_some _ _ _ h4
            left
            refine ⟨pI, b, u, v, g4, hp, hbr, ?_, ?_⟩
            · rw [hi4, hi3, hi2, hi1]; simp
            · simpa using h.symm
      · split at h
        · exact absurd h (by simp)
        · rename_i pJ g3 h3
          obtain ⟨hpJ, hne, _, hi3⟩ := secondParticle_some _ _ _ _ _ h3
          split at h
          · exact absurd h (by simp)
          · rename_i u1 g4 h4
            obtain ⟨_, _, _, hi4⟩ := rand01_some _ _ _ h4
            split at h
            · exact absurd h (by simp)
            · rename_i v1 g5 h5
              obtain ⟨_, _, _, hi5⟩ := rand01_some _ _ _ h5
              split at h
              · exact absurd h (by simp)
              · rename_i u2 g6 h6
                obtain ⟨_, _, _, hi6⟩ := rand01_some _ _ _ h6
                split at h
                · exact absurd h (by simp)
                · rename_i v2 g7 h7
                  obtain ⟨_, _, _, hi7⟩ := rand01_some _ _ _ h7
                  right
                  refine ⟨pI, pJ, b, u1, v1, u2, v2, g7, hp, hpJ, hne, hb, hbr, ?_, ?_⟩
                  · rw [hi7, hi6, hi5, hi4]
                    rw [hi2] at hi3
                    rw [hi1]; simp only [List.length_cons]; omega
                  · simpa using h.symm

/-! ## Hard-disk non-overlap -/

theorem swapCommit_frame (s : HDMC) (pI pJ : Nat) (xI yI rI xJ yJ rJ : ℚ) (counter : Int) :
    (swapCommit s pI pJ xI yI rI xJ yJ rJ counter).1.n = s.n ∧
    (swapCommit s pI pJ xI yI rI xJ yJ rJ counter).1.cellLen = s.cellLen ∧
    (swapCommit s pI pJ xI yI rI xJ yJ rJ counter).1.rCellLen = s.rCellLen ∧
    (swapCommit s pI pJ xI yI rI xJ yJ rJ counter).1.mtGen = s.mtGen ∧
    (swapCommit s pI pJ xI yI rI xJ yJ rJ counter).1.transProb = s.transProb ∧
    (swapCommit s pI pJ xI yI rI xJ yJ rJ counter).1.transDelta = s.transDelta ∧
    (swapCommit s pI pJ xI yI rI xJ yJ rJ counter).1.interaction = s.interaction := by
  unfold swapCommit
  split_ifs <;> simp

theorem swapCommit_sized (s : HDMC) (pI pJ : Nat) (xI yI rI xJ yJ rJ : ℚ) (counter : Int)
    (hs : Sized s) : Sized (swapCommit s pI pJ xI yI rI xJ yJ rJ counter).1 := by
  unfold swapCommit
  split_ifs
  · simpa [Sized] using hs
  · exact hs

theorem swapCommit_nonOverlapping (s : HDMC) (pI pJ : Nat) (xI yI rI xJ yJ rJ : ℚ)
    (counter : Int) (hs : Sized s) (hpI : pI < s.n) (hpJ : pJ < s.n) (hne : pI ≠ pJ)
    (hno : NonOverlapping s) :
    NonOverlapping (swapCommit s pI pJ xI yI rI xJ yJ rJ counter).1 := by
  by_cases h : swapAccept s pI pJ xI yI rI xJ yJ rJ = true
  · rw [swapCommit_accept s pI pJ xI yI rI xJ yJ rJ counter h]
    obtain ⟨h0, hI, hJ⟩ := (swapAccept_iff s pI pJ xI yI rI xJ yJ rJ).mp h
    have hx : pI < s.x.length := by rw [hs.1]; exact hpI
    have hy : pI < s.y.length := by rw [hs.2.1]; exact hpI
    have hr : pI < s.r.length := by rw [hs.2.2]; exact hpI
    have hx2 : pJ < s.x.length := by rw [hs.1]; exact hpJ
    have hy2 : pJ < s.y.length := by rw [hs.2.1]; exact hpJ
    have hr2 : pJ < s.r.length := by rw [hs.2.2]; exact hpJ
    generalize hs1 : ({ s with x := (s.x.set pI xI).set pJ xJ,
                               y := (s.y.set pI yI).set pJ yJ,
                               r := (s.r.set pI rI).set pJ rJ } : HDMC) = s1
    have e1 : s1.x = (s.x.set pI xI).set pJ xJ := by rw [← hs1]
    have e2 : s1.y = (s.y.set pI yI).set pJ yJ := by rw [← hs1]
    have e3 : s1.r = (s.r.set pI rI).set pJ rJ := by rw [← hs1]
    have e4 : ∀ a b c d, distSq s1 a b c d = distSq s a b c d := by
      intro a b c d; rw [← hs1]; rfl
    have e5 : s1.n = s.n := by rw [← hs1]
    have kIJ : ¬ Overlap s1 pI pJ := by
      simp only [Overlap, e1, e2, e3, e4, vget_set_set_fst _ _ _ _ _ hx hne,
        vget_set_set_fst _ _ _ _ _ hy hne, vget_set_set_fst _ _ _ _ _ hr hne,
        vget_set_set_snd _ _ _ _ _ hx2, vget_set_set_snd _ _ _ _ _ hy2,
        vget_set_set_snd _ _ _ _ _ hr2]
      exact not_lt.mpr h0
    have kI : ∀ k, k < s.n → k ≠ pI → k ≠ pJ → ¬ Overlap s1 pI k := by
      intro k hk hk1 hk2
      simp only [Overlap, e1, e2, e3, e4, vget_set_set_fst _ _ _ _ _ hx hne,
        vget_set_set_fst _ _ _ _ _ hy hne, vget_set_set_fst _ _ _ _ _ hr hne,
        vget_set_set_other _ _ _ _ _ _ hk1 hk2]
      exact not_lt.mpr (hI k hk hk1 hk2)
    have kJ : ∀ k, k < s.n → k ≠ pI → k ≠ pJ → ¬ Overlap s1 pJ k := by
      intro k hk hk1 hk2
      simp only [Overlap, e1, e2, e3, e4, vget_set_set_snd _ _ _ _ _ hx2,
        vget_set_set_snd _ _ _ _ _ hy2, vget_set_set_snd _ _ _ _ _ hr2,
        vget_set_set_other _ _ _ _ _ _ hk1 hk2]
      exact not_lt.mpr (hJ k hk hk1 hk2)
    have kO : ∀ i j, i < s.n → j < s.n → i ≠ j → i ≠ pI → i ≠ pJ → j ≠ pI → j ≠ pJ →
        ¬ Overlap s1 i j := by
      intro i j hi hj hij hi1 hi2 hj1 hj2
      simp only [Overlap, e1, e2, e3, e4, vget_set_set_other _ _ _ _ _ _ hi1 hi2,
        vget_set_set_other _ _ _ _ _ _ hj1 hj2]
      exact hno i j hi hj hij
    intro i j hi hj hij
    rw [e5] at hi hj
    by_cases hi1 : i = pI
    · subst hi1
      by_cases hj2 : j = pJ
      · subst hj2; exact kIJ
      · exact kI j hj (Ne.symm hij) hj2
    · by_cases hi2 : i = pJ
      · subst hi2
        by_cases hj1 : j = pI
        · subst hj1; rw [overlap_symm]; exact kIJ
        · exact kJ j hj hj1 (Ne.symm hij)
      · by_cases hj1 : j = pI
        · subst hj1; rw [overlap_symm]; exact kI i hi hi1 hi2
        · by_cases hj2 : j = pJ
          · subst hj2; rw [overlap_symm]; exact kJ i hi hi1 hi2
          · exact kO i j hi hj hij hi1 hi2 hj1 hj2
  · rw [swapCommit_reject s pI pJ xI yI rI xJ yJ rJ counter h]; exact hno

theorem mcAdditiveMove_invariant (s : HDMC) (counter : Int) (res : HDMC × Int)
    (hs : Sized s) (hno : NonOverlapping s) (h : mcAdditiveMove s counter = some res) :
    Sized res.1 ∧ NonOverlapping res.1 ∧ res.1.n = s.n := by
  rcases mcAdditiveMove_cases s counter res h with
    ⟨pI, b, u, v, g, hp, _, _, hres⟩ |
    ⟨pI, pJ, b, u1, v1, u2, v2, g, hpI, hpJ, hne, _, _, _, hres⟩
  · subst hres
    exact ⟨translationCommit_sized _ _ _ _ _ hs,
      translationCommit_nonOverlapping _ _ _ _ _ hs hp hno,
      (translationCommit_frame _ _ _ _ _).1⟩
  · subst hres
    exact ⟨swapCommit_sized _ _ _ _ _ _ _ _ _ _ hs,
      swapCommit_nonOverlapping _ _ _ _ _ _ _ _ _ _ hs hpI hpJ hne hno,
      (swapCommit_frame _ _ _ _ _ _ _ _ _ _).1⟩

theorem mcCycleLoop_invariant (k : Nat) (s : HDMC) (counter : Int) (res : HDMC × Int)
    (hs : Sized s) (hno : NonOverlapping s) (h : mcCycleLoop k s counter = some res) :
    Sized res.1 ∧ NonOverlapping res.1 ∧ res.1.n = s.n := by
  induction k generalizing s counter with
  | zero =>
    simp only [mcCycleLoop, Option.some.injEq] at h
    subst h; exact ⟨hs, hno, rfl⟩
  | succ k ih =>
    unfold mcCycleLoop at h
    split at h
    · exact absurd h (by simp)
    · rename_i s1 c1 h1
      obtain ⟨a1, a2, a3⟩ := mcAdditiveMove_invariant s counter (s1, c1) hs hno h1
      obtain ⟨b1, b2, b3⟩ := ih s1 c1 a1 a2 h
      exact ⟨b1, b2, b3.trans a3⟩

/-- Claim C1: in a state whose vectors hold `n` particles, none of which overlaps another,
the translation branch and the swap branch of `mcAdditiveMove` (accepting or rejecting)
leave a configuration without overlap, for every step size and every draw; so does every
completed call of `mcAdditiveMove`, and so does every completed `mcCycle`. -/
theorem nonOverlap_preserved (s : HDMC) (hs : Sized s) (hno : NonOverlapping s) :
    (∀ pI u v counter, pI < s.n → NonOverlapping (translationMove s pI u v counter).1) ∧
    (∀ pI pJ u1 v1 u2 v2 counter, pI < s.n → pJ < s.n → pI ≠ pJ →
      NonOverlapping (swapMove s pI pJ u1 v1 u2 v2 counter).1) ∧
    (∀ counter res, mcAdditiveMove s counter = some res → NonOverlapping res.1) ∧
    (∀ res, mcCycle s = some res → NonOverlapping res.1) := by
  refine ⟨?_, ?_, ?_, ?_⟩
  · intro pI u v counter hp
    exact translationCommit_nonOverlapping _ _ _ _ _ hs hp hno
  · intro pI pJ u1 v1 u2 v2 counter hpI hpJ hne
    exact swapCommit_nonOverlapping _ _ _ _ _ _ _ _ _ _ hs hpI hpJ hne hno
  · intro counter res h
    exact (mcAdditiveMove_invariant s counter res hs hno h).2.1
  · intro res h
    unfold mcCycle at h
    split_ifs at h
    · exact (mcCycleLoop_invariant _ s 0 res hs hno h).2.1
    · simp only [Option.some.injEq] at h
      subst h; exact hno

/-! ## The concrete configuration -/

theorem twoDisks_sized : Sized twoDisks := by
  simp [Sized, twoDisks]

theorem wrap_ten_div (u : ℚ) (h : -5 ≤ u ∧ u ≤ 5) : wrap 10 (1 / 10) u = u :=
  wrap_of_abs_le 10 u (by norm_num) (by norm_num; exact abs_le.mpr h)

theorem wrap_ten (u : ℚ) (h : -5 ≤ u ∧ u ≤ 5) : wrap 10 10⁻¹ u = u := by
  simpa using wrap_ten_div u h

theorem twoDisks_nonOverlapping : NonOverlapping twoDisks := by
  intro i j hi hj hij
  have hn : twoDisks.n = 2 := rfl
  rw [hn] at hi hj
  interval_cases i <;> interval_cases j <;>
    simp [Overlap, twoDisks, vget, distSq] at hij ⊢
  · rw [wrap_ten 0 (by norm_num), wrap_ten (-3) (by norm_num)]; norm_num
  · rw [wrap_ten 0 (by norm_num), wrap_ten 3 (by norm_num)]; norm_num

theorem twoDisks_folded : Folded twoDisks := by
  intro i hi
  have hn : twoDisks.n = 2 := rfl
  rw [hn] at hi
  interval_cases i <;> simp [twoDisks, vget, InHalfOpenCell] <;> norm_num

/-- Witness of `nonOverlap_preserved`: the two-disk configuration. -/
theorem nonOverlap_preserved_witness :
    Sized twoDisks ∧ NonOverlapping twoDisks ∧
      NonOverlapping (translationMove twoDisks 0 (3 / 4) (1 / 2) 0).1 :=
  ⟨twoDisks_sized, twoDisks_nonOverlapping,
    (nonOverlap_preserved twoDisks twoDisks_sized twoDisks_nonOverlapping).1 0 (3 / 4)
      (1 / 2) 0 (by decide)⟩

/-- Witness of `translation_decision`: in the two-disk configuration particle 0, proposed
at `(1/2, 0)`, is at squared distance 25/4 from particle 1 and is accepted. -/
theorem translation_decision_witness :
    Sized twoDisks ∧
      translationCheck twoDisks 0 (1 / 2) 0 (vget twoDisks.r 0) = true ∧
      (translationCommit twoDisks 0 (1 / 2) 0 7).2 = 8 ∧
      vget (translationCommit twoDisks 0 (1 / 2) 0 7).1.x 0 = 1 / 2 := by
  have hd := translation_decision twoDisks 0 (1 / 2) 0 7 twoDisks_sized (by decide)
  have hacc : translationCheck twoDisks 0 (1 / 2) 0 (vget twoDisks.r 0) = true := by
    refine hd.1.mpr ?_
    intro k hk hne
    have hn : twoDisks.n = 2 := rfl
    rw [hn] at hk
    have hk1 : k = 1 := by omega
    subst hk1
    simp only [twoDisks, vget, distSq, List.getD_cons_zero, List.getD_cons_succ]
    norm_num
    rw [wrap_ten_div 0 (by norm_num), wrap_ten_div (-(5 / 2)) (by norm_num)]
    norm_num
  exact ⟨twoDisks_sized, hacc, (hd.2.1 hacc).1, (hd.2.1 hacc).2.1⟩

/-- Witness of `swap_decision`: in the two-disk configuration the proposals `(3, 0)` with
radius 1/2 for slot 0 and `(0, 0)` with radius 1 for slot 1 are accepted, and the radii
are exchanged. -/
theorem swap_decision_witness :
    Sized twoDisks ∧
      swapAccept twoDisks 0 1 3 0 (vget twoDisks.r 1) 0 0 (vget twoDisks.r 0) = true ∧
      vget (swapCommit twoDisks 0 1 3 0 (vget twoDisks.r 1) 0 0 (vget twoDisks.r 0) 0).1.r 0
        = 1 / 2 ∧
      vget (swapCommit twoDisks 0 1 3 0 (vget twoDisks.r 1) 0 0 (vget twoDisks.r 0) 0).1.r 1
        = 1 := by
  have hd := (swap_decision twoDisks 0 1 (1 / 2) (1 / 2) (1 / 2) (1 / 2) 0 twoDisks_sized
    (by decide) (by decide) (by decide)).2 3 0 0 0
  have hn : twoDisks.n = 2 := rfl
  have hacc : swapAccept twoDisks 0 1 3 0 (vget twoDisks.r 1) 0 0 (vget twoDisks.r 0)
      = true := by
    refine hd.1.mpr ⟨?_, ?_, ?_⟩
    · simp only [twoDisks, vget, distSq, List.getD_cons_zero, List.getD_cons_succ]
      norm_num
      rw [wrap_ten_div 0 (by norm_num), wrap_ten_div 3 (by norm_num)]
      norm_num
    · intro k hk h0 h1
      rw [hn] at hk
      omega
    · intro k hk h0 h1
      rw [hn] at hk
      omega
  have hres := hd.2.1 hacc
    (swapCommit twoDisks 0 1 3 0 (vget twoDisks.r 1) 0 0 (vget twoDisks.r 0) 0).1
    (swapCommit twoDisks 0 1 3 0 (vget twoDisks.r 1) 0 0 (vget twoDisks.r 0) 0).2 rfl
  refine ⟨twoDisks_sized, hacc, ?_, ?_⟩
  · rw [hres.2.2.2.1]; simp [twoDisks, vget]
  · rw [hres.2.2.2.2.2.2.1]; simp [twoDisks, vget]

/-! ## Rounding of zero -/

theorem nearbyint_zero : nearbyint 0 = 0 :=
  nearbyint_eq_zero 0 (by norm_num)

/-! ## Zero-step proposals -/

theorem propose_zero (s : HDMC) (hL : 0 < s.cellLen) (hr : s.rCellLen = 1 / s.cellLen)
    (hd : s.transDelta = 0) (c u : ℚ) (hc : InHalfOpenCell s.cellLen c) :
    propose s c u = c := by
  unfold propose
  rw [hd, hr, zero_mul, add_zero]
  exact wrap_of_abs_le _ c hL (abs_le.mpr ⟨hc.1, hc.2.le⟩)

theorem translationMove_zero (s : HDMC) (hL : 0 < s.cellLen)
    (hr : s.rCellLen = 1 / s.cellLen) (hd : s.transDelta = 0) (hno : NonOverlapping s)
    (hf : Folded s) (pI : Nat) (u v : ℚ) (counter : Int) (hp : pI < s.n) :
    (translationMove s pI u v counter).2 = counter + 1 := by
  unfold translationMove
  rw [propose_zero s hL hr hd _ u (hf pI hp).1, propose_zero s hL hr hd _ v (hf pI hp).2]
  have hc : translationCheck s pI (vget s.x pI) (vget s.y pI) (vget s.r pI) = true := by
    rw [translationCheck_iff]
    intro k hk hne
    exact not_lt.mp (hno pI k hp hk (Ne.symm hne))
  rw [translationCommit_accept s pI _ _ counter hc]

theorem swapMove_zero (s : HDMC) (hL : 0 < s.cellLen)
    (hr : s.rCellLen = 1 / s.cellLen) (hd : s.transDelta = 0) (hno : NonOverlapping s)
    (hf : Folded s) (pI pJ : Nat) (u1 v1 u2 v2 : ℚ) (counter : Int) (hpI : pI < s.n)
    (hpJ : pJ < s.n) (hne : pI ≠ pJ) :
    (swapMove s pI pJ u1 v1 u2 v2 counter).2 = counter + 1 := by
  unfold swapMove
  rw [propose_zero s hL hr hd _ u1 (hf pJ hpJ).1, propose_zero s hL hr hd _ v1 (hf pJ hpJ).2,
    propose_zero s hL hr hd _ u2 (hf pI hpI).1, propose_zero s hL hr hd _ v2 (hf pI hpI).2]
  have hc : swapAccept s pI pJ (vget s.x pJ) (vget s.y pJ) (vget s.r pJ)
      (vget s.x pI) (vget s.y pI) (vget s.r pI) = true := by
    rw [swapAccept_iff]
    refine ⟨not_lt.mp (hno pJ pI hpJ hpI (Ne.symm hne)), ?_, ?_⟩
    · intro k hk _ hk2
      exact not_lt.mp (hno pJ k hpJ hk (Ne.symm hk2))
    · intro k hk hk1 _
      exact not_lt.mp (hno pI k hpI hk (Ne.symm hk1))
  rw [swapCommit_accept s pI pJ _ _ _ _ _ _ counter hc]

/-- Claim C7: in a state with `transDelta = 0` whose particles do not overlap and whose
coordinates lie in the folded cell (cell length `L > 0`, `rCellLen = 1/L`), the translation
branch accepts for every chosen particle and the swap branch accepts for every two distinct
chosen particles, whatever the draws; every completed `mcAdditiveMove` returns the counter
increased by one. -/
theorem zero_step_accepted (s : HDMC) (hL : 0 < s.cellLen) (hr : s.rCellLen = 1 / s.cellLen)
    (hd : s.transDelta = 0) (hno : NonOverlapping s) (hf : Folded s) :
    (∀ pI u v counter, pI < s.n → (translationMove s pI u v counter).2 = counter + 1) ∧
    (∀ pI pJ u1 v1 u2 v2 counter, pI < s.n → pJ < s.n → pI ≠ pJ →
      (swapMove s pI pJ u1 v1 u2 v2 counter).2 = counter + 1) ∧
    (∀ counter res, mcAdditiveMove s counter = some res → res.2 = counter + 1) := by
  refine ⟨?_, ?_, ?_⟩
  · intro pI u v counter hp
    exact translationMove_zero s hL hr hd hno hf pI u v counter hp
  · intro pI pJ u1 v1 u2 v2 counter hpI hpJ hne
    exact swapMove_zero s hL hr hd hno hf pI pJ u1 v1 u2 v2 counter hpI hpJ hne
  · intro counter res h
    rcases mcAdditiveMove_cases s counter res h with
      ⟨pI, b, u, v, g, hp, _, _, hres⟩ |
      ⟨pI, pJ, b, u1, v1, u2, v2, g, hpI, hpJ, hne, _, _, _, hres⟩
    · subst hres
      exact translationMove_zero { s with mtGen := g } hL hr hd hno hf pI u v counter hp
    · subst hres
      exact swapMove_zero { s with mtGen := g } hL hr hd hno hf pI pJ u1 v1 u2 v2 counter
        hpI hpJ hne

/-- Witness of `zero_step_accepted`: the two-disk configuration with a zero step; a swap of
its two particles is accepted. -/
theorem zero_step_accepted_witness :
    0 < twoDisksAtRest.cellLen ∧ twoDisksAtRest.rCellLen = 1 / twoDisksAtRest.cellLen ∧
      twoDisksAtRest.transDelta = 0 ∧ NonOverlapping twoDisksAtRest ∧ Folded twoDisksAtRest ∧
      (swapMove twoDisksAtRest 0 1 (1 / 4) (3 / 4) 0 (1 / 2) 5).2 = 6 :=
  ⟨by norm_num [twoDisksAtRest, twoDisks], by norm_num [twoDisksAtRest, twoDisks], rfl,
    twoDisks_nonOverlapping, twoDisks_folded,
    (zero_step_accepted twoDisksAtRest (by norm_num [twoDisksAtRest, twoDisks])
      (by norm_num [twoDisksAtRest, twoDisks]) rfl twoDisks_nonOverlapping
      twoDisks_folded).2.1 0 1 (1 / 4) (3 / 4) 0 (1 / 2) 5 (by decide) (by decide) (by decide)⟩

/-! ## Completion of a move and of a cycle -/

theorem rand01_cons (g : MtGen) (u : ℚ) (t : List ℚ) (h : g.reals = u :: t) (h0 : 0 ≤ u)
    (h1 : u < 1) : rand01 g = some (u, { g with reals := t }) := by
  unfold rand01
  rw [h]
  simp [h0, h1]

theorem randParticle_cons (n : Nat) (g : MtGen) (d : Nat) (t : List Nat)
    (h : g.ints = d :: t) (hd : d < n) :
    randParticle n g = some (d, { g with ints := t }) := by
  unfold randParticle
  rw [h]
  simp [hd]

theorem secondParticle_cons (n pI : Nat) (g : MtGen) (d : Nat) (t : List Nat)
    (h : g.ints = d :: t) (hd : d < n) (hne : pI ≠ d) :
    secondParticle n pI g = some (d, { g with ints := t }) := by
  unfold secondParticle
  rw [h]
  simp [secondParticleLoop, hd, hne]

theorem translationMove_frame (s : HDMC) (pI : Nat) (u v : ℚ) (counter : Int) :
    (translationMove s pI u v counter).1.n = s.n ∧
    (translationMove s pI u v counter).1.mtGen = s.mtGen ∧
    (translationMove s pI u v counter).1.transProb = s.transProb ∧
    (translationMove s pI u v counter).1.r = s.r := by
  have h := translationCommit_frame s pI (propose s (vget s.x pI) u)
    (propose s (vget s.y pI) v) counter
  exact ⟨h.1, h.2.2.2.2.1, h.2.2.2.2.2.1, h.2.1⟩

theorem swapMove_frame (s : HDMC) (pI pJ : Nat) (u1 v1 u2 v2 : ℚ) (counter : Int) :
    (swapMove s pI pJ u1 v1 u2 v2 counter).1.n = s.n ∧
    (swapMove s pI pJ u1 v1 u2 v2 counter).1.mtGen = s.mtGen ∧
    (swapMove s pI pJ u1 v1 u2 v2 counter).1.transProb = s.transProb := by
  have h := swapCommit_frame s pI pJ (propose s (vget s.x pJ) u1)
    (propose s (vget s.y pJ) v1) (vget s.r pJ) (propose s (vget s.x pI) u2)
    (propose s (vget s.y pI) v2) (vget s.r pI) counter
  exact ⟨h.1, h.2.2.2.1, h.2.2.2.2.1⟩

theorem mcAdditiveMove_completes (s : HDMC) (counter : Int) (k : Nat)
    (h : TapeSupplies s.n s.transProb s.mtGen (k + 1)) :
    ∃ res, mcAdditiveMove s counter = some res ∧
      TapeSupplies res.1.n res.1.transProb res.1.mtGen k := by
  obtain ⟨hi, hr, hc, hli, hlr⟩ := h
  obtain ⟨d0, d1, ti, ei⟩ : ∃ d0 d1 ti, s.mtGen.ints = d0 :: d1 :: ti := by
    match hm : s.mtGen.ints, hli with
    | [], hl => simp at hl
    | [_], hl => simp at hl; omega
    | d0 :: d1 :: ti, _ => exact ⟨d0, d1, ti, rfl⟩
  obtain ⟨b, u1, v1, u2, v2, tr, er⟩ :
      ∃ b u1 v1 u2 v2 tr, s.mtGen.reals = b :: u1 :: v1 :: u2 :: v2 :: tr := by
    match hm : s.mtGen.reals, hlr with
    | [], hl => simp at hl
    | [_], hl => simp at hl; omega
    | [_, _], hl => simp at hl; omega
    | [_, _, _], hl => simp at hl; omega
    | [_, _, _, _], hl => simp at hl; omega
    | b :: u1 :: v1 :: u2 :: v2 :: tr, _ => exact ⟨b, u1, v1, u2, v2, tr, rfl⟩
  rw [ei] at hi hc hli
  rw [er] at hr hlr
  simp only [List.length_cons] at hli hlr
  have hd0 : d0 < s.n := hi d0 (by simp)
  have hd1 : d1 < s.n := hi d1 (by simp)
  have hb := hr b (by simp)
  have hu1 := hr u1 (by simp)
  have hv1 := hr v1 (by simp)
  have hu2 := hr u2 (by simp)
  have hv2 := hr v2 (by simp)
  have e1 := randParticle_cons s.n s.mtGen d0 (d1 :: ti) ei hd0
  have e2 := rand01_cons { s.mtGen with ints := d1 :: ti } b (u1 :: v1 :: u2 :: v2 :: tr) er
    hb.1 hb.2
  by_cases hbr : b < s.transProb
  · have e3 := rand01_cons { ints := d1 :: ti, reals := u1 :: v1 :: u2 :: v2 :: tr } u1
      (v1 :: u2 :: v2 :: tr) rfl hu1.1 hu1.2
    have e4 := rand01_cons { ints := d1 :: ti, reals := v1 :: u2 :: v2 :: tr } v1
      (u2 :: v2 :: tr) rfl hv1.1 hv1.2
    refine ⟨translationMove
      { s with mtGen := { ints := d1 :: ti, reals := u2 :: v2 :: tr } } d0 u1 v1 counter,
      by simp only [mcAdditiveMove, e1, e2, hbr, if_true, e3, e4], ?_⟩
    obtain ⟨f1, f2, f3, _⟩ := translationMove_frame
      { s with mtGen := { ints := d1 :: ti, reals := u2 :: v2 :: tr } } d0 u1 v1 counter
    rw [f1, f2, f3]
    refine ⟨fun d hd => hi d (by simp at hd ⊢; tauto),
      fun u hu => hr u (by simp at hu ⊢; tauto), ?_, ?_, ?_⟩
    · rcases hc with hc | hc
      · exact Or.inl hc
      · exact Or.inr (List.Chain'.tail hc)
    · simp only [List.length_cons]; omega
    · simp only [List.length_cons]; omega
  · have hne : d0 ≠ d1 := by
      rcases hc with hc | hc
      · exact absurd (lt_of_lt_of_le hb.2 hc) hbr
      · exact (List.chain'_cons.mp hc).1
    have e3 := secondParticle_cons s.n d0
      { ints := d1 :: ti, reals := u1 :: v1 :: u2 :: v2 :: tr } d1 ti rfl hd1 hne
    have e4 := rand01_cons { ints := ti, reals := u1 :: v1 :: u2 :: v2 :: tr } u1
      (v1 :: u2 :: v2 :: tr) rfl hu1.1 hu1.2
    have e5 := rand01_cons { ints := ti, reals := v1 :: u2 :: v2 :: tr } v1
      (u2 :: v2 :: tr) rfl hv1.1 hv1.2
    have e6 := rand01_cons { ints := ti, reals := u2 :: v2 :: tr } u2
      (v2 :: tr) rfl hu2.1 hu2.2
    have e7 := rand01_cons { ints := ti, reals := v2 :: tr } v2 tr rfl hv2.1 hv2.2
    refine ⟨swapMove { s with mtGen := { ints := ti, reals := tr } } d0 d1 u1 v1 u2 v2
      counter, by simp only [mcAdditiveMove, e1, e2, hbr, if_false, e3, e4, e5, e6, e7], ?_⟩
    obtain ⟨f1, f2, f3⟩ := swapMove_frame
      { s with mtGen := { ints := ti, reals := tr } } d0 d1 u1 v1 u2 v2 counter
    rw [f1, f2, f3]
    refine ⟨fun d hd => hi d (by simp at hd ⊢; tauto),
      fun u hu => hr u (by simp at hu ⊢; tauto), ?_, ?_, ?_⟩
    · rcases hc with hc | hc
      · exact Or.inl hc
      · exact Or.inr (List.Chain'.tail (List.Chain'.tail hc))
    · show 2 * k ≤ ti.length
      omega
    · show 5 * k ≤ tr.length
      omega

theorem mcCycleLoop_completes (k : Nat) (s : HDMC) (counter : Int)
    (h : TapeSupplies s.n s.transProb s.mtGen k) :
    ∃ res, mcCycleLoop k s counter = some res := by
  induction k generalizing s counter with
  | zero => exact ⟨(s, counter), rfl⟩
  | succ k ih =>
    obtain ⟨res, h1, h2⟩ := mcAdditiveMove_completes s counter k h
    obtain ⟨res2, h3⟩ := ih res.1 res.2 h2
    exact ⟨res2, by simp only [mcCycleLoop, h1, h3]⟩

/-! ## Translation-only runs -/

theorem mcAdditiveMove_translation_only (s : HDMC) (h : s.transProb = 1) (counter : Int)
    (res : HDMC × Int) (hres : mcAdditiveMove s counter = some res) :
    (∃ (pI : Nat) (u v : ℚ) (g : MtGen), pI < s.n ∧
      res = translationMove { s with mtGen := g } pI u v counter) ∧
    res.1.r = s.r ∧ res.1.transProb = 1 := by
  rcases mcAdditiveMove_cases s counter res hres with
    ⟨pI, b, u, v, g, hp, _, _, e⟩ | ⟨pI, pJ, b, u1, v1, u2, v2, g, _, _, _, hb, hbr, _, e⟩
  · subst e
    obtain ⟨_, _, f3, f4⟩ := translationMove_frame { s with mtGen := g } pI u v counter
    exact ⟨⟨pI, u, v, g, hp, rfl⟩, f4, f3.trans h⟩
  · rw [h] at hbr
    exact absurd hb hbr

theorem mcCycleLoop_translation_only (k : Nat) (s : HDMC) (h : s.transProb = 1)
    (counter : Int) (res : HDMC × Int) (hres : mcCycleLoop k s counter = some res) :
    res.1.r = s.r := by
  induction k generalizing s counter with
  | zero =>
    simp only [mcCycleLoop, Option.some.injEq] at hres
    subst hres; rfl
  | succ k ih =>
    unfold mcCycleLoop at hres
    split at hres
    · exact absurd hres (by simp)
    · rename_i s1 c1 h1
      obtain ⟨_, a2, a3⟩ := mcAdditiveMove_translation_only s h counter (s1, c1) h1
      exact (ih s1 a3 c1 hres).trans a2

/-- Claim C8: `setSimulation` with `swap = 0` leaves `swapProb = 0` and `transProb = 1`; in
a state with `transProb = 1` every completed `mcAdditiveMove` is a run of the translation
branch and returns the radii vector `r` unchanged, and every completed `mcCycle` returns
`r` unchanged. -/
theorem radii_preserved_without_swaps (s0 : HDMC) (eq prod : Int) (accTarg : ℚ) (s : HDMC)
    (h : s.transProb = 1) :
    (setSimulation s0 eq prod 0 accTarg).swapProb = 0 ∧
    (setSimulation s0 eq prod 0 accTarg).transProb = 1 ∧
    (∀ counter res, mcAdditiveMove s counter = some res →
      (∃ (pI : Nat) (u v : ℚ) (g : MtGen), pI < s.n ∧
        res = translationMove { s with mtGen := g } pI u v counter) ∧
      res.1.r = s.r) ∧
    (∀ res, mcCycle s = some res → res.1.r = s.r) := by
  refine ⟨rfl, by simp [setSimulation], ?_, ?_⟩
  · intro counter res hres
    obtain ⟨a1, a2, _⟩ := mcAdditiveMove_translation_only s h counter res hres
    exact ⟨a1, a2⟩
  · intro res hres
    unfold mcCycle at hres
    split_ifs at hres
    · exact mcCycleLoop_translation_only _ s h 0 res hres
    · simp only [Option.some.injEq] at hres
      subst hres; rfl

theorem twoDisks_tapeSupplies : TapeSupplies twoDisks.n twoDisks.transProb twoDisks.mtGen 2 := by
  refine ⟨?_, ?_, Or.inl (by norm_num [twoDisks]), by simp [twoDisks], by simp [twoDisks]⟩
  · intro d hd
    simp only [twoDisks, List.mem_cons, List.mem_singleton, List.not_mem_nil, or_false] at hd
    rcases hd with h | h | h | h <;> rw [h] <;> decide
  · intro u hu
    simp only [twoDisks, List.mem_cons, List.mem_singleton, List.not_mem_nil, or_false] at hu
    rcases hu with h | h | h | h | h | h | h | h | h | h <;> rw [h] <;> norm_num

/-- Witness of `radii_preserved_without_swaps`: the two-disk configuration after
`setSimulation` with swap probability 0; its cycle completes and returns the radii. -/
theorem radii_preserved_without_swaps_witness :
    (setSimulation twoDisks 10 10 0 (1 / 2)).transProb = 1 ∧
      ∃ res, mcCycle (setSimulation twoDisks 10 10 0 (1 / 2)) = some res ∧
        res.1.r = [1, 1 / 2] := by
  have h1 : (setSimulation twoDisks 10 10 0 (1 / 2)).transProb = 1 := by simp [setSimulation]
  obtain ⟨res, hres⟩ := mcCycleLoop_completes 2 (setSimulation twoDisks 10 10 0 (1 / 2)) 0
    ⟨twoDisks_tapeSupplies.1, twoDisks_tapeSupplies.2.1, Or.inl h1.ge,
      twoDisks_tapeSupplies.2.2.2⟩
  have h2 : mcCycle (setSimulation twoDisks 10 10 0 (1 / 2)) = some res := by
    unfold mcCycle
    rw [if_pos (by rfl)]
    exact hres
  exact ⟨h1, res, h2,
    (radii_preserved_without_swaps twoDisks 10 10 (1 / 2)
      (setSimulation twoDisks 10 10 0 (1 / 2)) h1).2.2.2 res h2⟩

/-! ## The attempts of a cycle -/

theorem mcAdditiveMove_counter (s : HDMC) (counter : Int) (res : HDMC × Int)
    (h : mcAdditiveMove s counter = some res) :
    res.2 = counter ∨ res.2 = counter + 1 := by
  rcases mcAdditiveMove_cases s counter res h with
    ⟨pI, b, u, v, g, _, _, _, e⟩ | ⟨pI, pJ, b, u1, v1, u2, v2, g, _, _, _, _, _, _, e⟩
  · subst e
    unfold translationMove translationCommit
    split_ifs
    · exact Or.inr rfl
    · exact Or.inl rfl
  · subst e
    unfold swapMove swapCommit
    split_ifs
    · exact Or.inr rfl
    · exact Or.inl rfl

theorem mcAdditiveMove_consumes (s : HDMC) (counter : Int) (res : HDMC × Int)
    (h : mcAdditiveMove s counter = some res) :
    res.1.mtGen.ints.length < s.mtGen.ints.length := by
  rcases mcAdditiveMove_cases s counter res h with
    ⟨pI, b, u, v, g, _, _, hg, e⟩ | ⟨pI, pJ, b, u1, v1, u2, v2, g, _, _, _, _, _, hg, e⟩
  · subst e
    rw [(translationMove_frame _ _ _ _ _).2.1]; exact hg
  · subst e
    rw [(swapMove_frame _ _ _ _ _ _ _ _).2.1]; exact hg

theorem attempts_consume (k : Nat) (p t : HDMC × Int) (h : Attempts k p t) :
    t.1.mtGen.ints.length + k ≤ p.1.mtGen.ints.length := by
  induction h with
  | done p => simp
  | step hm _ ih =>
    have h1 := mcAdditiveMove_consumes _ _ _ hm
    omega

theorem mcCycleLoop_attempts (k : Nat) (s : HDMC) (counter : Int) (res : HDMC × Int)
    (h : mcCycleLoop k s counter = some res) :
    Attempts k (s, counter) res ∧ counter ≤ res.2 ∧ res.2 ≤ counter + k := by
  induction k generalizing s counter with
  | zero =>
    simp only [mcCycleLoop, Option.some.injEq] at h
    subst h
    exact ⟨Attempts.done _, le_refl _, by simp⟩
  | succ k ih =>
    unfold mcCycleLoop at h
    split at h
    · exact absurd h (by simp)
    · rename_i s1 c1 h1
      obtain ⟨a1, a2, a3⟩ := ih s1 c1 h
      have hc := mcAdditiveMove_counter s counter (s1, c1) h1
      refine ⟨Attempts.step h1 a1, ?_, ?_⟩
      · rcases hc with hc | hc <;> simp only at hc <;> omega
      · rcases hc with hc | hc <;> simp only at hc <;> push_cast <;> omega

/-- Claim C9, as stated, fails: after `setParticles` with interaction code 1 the cycle of
the two-disk configuration returns at once with count 0 and an untouched state, engine
included, although `n = 2`; no chain of two move attempts leaves the engine untouched. -/
theorem mcCycle_attempts_counterexample :
    twoDisksNonAdditive.n = 2 ∧
    mcCycle twoDisksNonAdditive = some (twoDisksNonAdditive, 0) ∧
    ¬ Attempts twoDisksNonAdditive.n (twoDisksNonAdditive, 0) (twoDisksNonAdditive, 0) := by
  refine ⟨rfl, ?_, ?_⟩
  · unfold mcCycle
    rw [if_neg (by simp [twoDisksNonAdditive, setParticles])]
  · intro h
    have h1 := attempts_consume _ _ _ h
    have h2 : twoDisksNonAdditive.n = 2 := rfl
    rw [h2] at h1
    omega

/-- Claim C9, amended: with interaction code 0 a completed `mcCycle` is a chain of exactly
`n` calls of `mcAdditiveMove` that starts with the counter at 0 and returns the counter at
the end of the chain, a value between 0 and `n`, and `mcCycle` does complete when the tape
supplies the draws of `n` calls; with any other interaction code `mcCycle` makes no call,
returns 0 and leaves the state as it was. -/
theorem mcCycle_attempts (s : HDMC) :
    (s.interaction = 0 → ∀ res, mcCycle s = some res →
      Attempts s.n (s, 0) res ∧ 0 ≤ res.2 ∧ res.2 ≤ s.n) ∧
    (s.interaction = 0 → TapeSupplies s.n s.transProb s.mtGen s.n →
      ∃ res, mcCycle s = some res) ∧
    (s.interaction ≠ 0 → mcCycle s = some (s, 0)) := by
  refine ⟨?_, ?_, ?_⟩
  · intro h0 res h
    unfold mcCycle at h
    rw [if_pos h0] at h
    obtain ⟨a1, a2, a3⟩ := mcCycleLoop_attempts s.n s 0 res h
    exact ⟨a1, a2, by simpa using a3⟩
  · intro h0 ht
    obtain ⟨res, h⟩ := mcCycleLoop_completes s.n s 0 ht
    exact ⟨res, by unfold mcCycle; rw [if_pos h0]; exact h⟩
  · intro h0
    unfold mcCycle
    rw [if_neg h0]

/-- Witness of `mcCycle_attempts`: the two-disk configuration (interaction code 0) completes
its cycle, and the same configuration with interaction code 1 returns 0 at once. -/
theorem mcCycle_attempts_witness :
    twoDisks.interaction = 0 ∧
      TapeSupplies twoDisks.n twoDisks.transProb twoDisks.mtGen twoDisks.n ∧
      (∃ res, mcCycle twoDisks = some res) ∧
      twoDisksNonAdditive.interaction ≠ 0 ∧
      mcCycle twoDisksNonAdditive = some (twoDisksNonAdditive, 0) :=
  ⟨rfl, twoDisks_tapeSupplies,
    (mcCycle_attempts twoDisks).2.1 rfl twoDisks_tapeSupplies,
    by simp [twoDisksNonAdditive, setParticles],
    (mcCycle_attempts twoDisksNonAdditive).2.2 (by simp [twoDisksNonAdditive, setParticles])⟩

/-! ## The limit selection of the calibrator -/

/-- Whatever the trials measured, the limit selection ends with code 0 or code 2: the
second statement assigns `optCode` in both of its branches. -/
theorem limitSelection_optCode (log10 pow10 : ℚ → ℚ) (trialDelta trialProb : List ℚ)
    (acceptTarget transDelta deltaMin deltaMax : ℚ) :
    (limitSelection log10 pow10 trialDelta trialProb acceptTarget transDelta deltaMin
        deltaMax).optCode = some 0 ∨
    (limitSelection log10 pow10 trialDelta trialProb acceptTarget transDelta deltaMin
        deltaMax).optCode = some 2 := by
  unfold limitSelection upperLimit
  split_ifs
  · exact Or.inr rfl
  · exact Or.inl rfl

/-- Claim C10, evaluated on the code: target 1/2, bounds 1/100 and 5, and no move accepted
at any of the eleven trial steps, so `trialProb[0] = 0 < acceptTarget`.  The first
statement of the limit selection sets code 1 and `transDelta = trialDelta[0]`; the second
statement, not being its `else`, then runs its own `else` branch, which moves `deltaMax`
down to `trialDelta[0]`, recomputes `transDelta` from the bounds and sets code 0: that is
what the limit selection returns, for every `log10` and `pow`. -/
theorem tooDense_returns_zero (log10 pow10 : ℚ → ℚ) :
    vget (List.replicate 11 (0 : ℚ)) 0 < 1 / 2 ∧
    (lowerLimit (trialDeltas log10 pow10 (1 / 100) 5) (List.replicate 11 0) (1 / 2)
        { transDelta := 1, deltaMin := 1 / 100, deltaMax := 5, optCode := none })
      = { transDelta := vget (trialDeltas log10 pow10 (1 / 100) 5) 0, deltaMin := 1 / 100,
          deltaMax := 5, optCode := some 1 } ∧
    (limitSelection log10 pow10 (trialDeltas log10 pow10 (1 / 100) 5) (List.replicate 11 0)
        (1 / 2) 1 (1 / 100) 5)
      = { transDelta := pow10 (1 / 2 * (log10 (1 / 100)
            + log10 (vget (trialDeltas log10 pow10 (1 / 100) 5) 0))),
          deltaMin := 1 / 100,
          deltaMax := vget (trialDeltas log10 pow10 (1 / 100) 5) 0,
          optCode := some 0 } := by
  have h0 : vget (List.replicate 11 (0 : ℚ)) 0 = 0 := by simp [vget]
  have h10 : vget (List.replicate 11 (0 : ℚ)) 10 = 0 := by simp [vget]
  refine ⟨by rw [h0]; norm_num, ?_, ?_⟩
  · unfold lowerLimit
    rw [h0, if_pos (by norm_num)]
  · have c1 : ¬ (0 : ℚ) > 1 / 2 := by norm_num
    have c2 : (0 : ℚ) < 1 / 2 := by norm_num
    simp only [limitSelection, upperLimit, lowerLimit, bracketLoop, h0, h10, c1, c2, if_true,
      if_false]

/-! ## Acceptance counting -/

theorem translationMove_counted (s : HDMC) (pI : Nat) (u v : ℚ) (counter : Int) :
    (translationMove s pI u v counter).2 = counter + 1 ∨
      translationMove s pI u v counter = (s, counter) := by
  unfold translationMove translationCommit
  split_ifs
  · exact Or.inl rfl
  · exact Or.inr rfl

theorem swapMove_counted (s : HDMC) (pI pJ : Nat) (u1 v1 u2 v2 : ℚ) (counter : Int) :
    (swapMove s pI pJ u1 v1 u2 v2 counter).2 = counter + 1 ∨
      swapMove s pI pJ u1 v1 u2 v2 counter = (s, counter) := by
  unfold swapMove swapCommit
  split_ifs
  · exact Or.inl rfl
  · exact Or.inr rfl

/-- Claim C20: each branch of `mcAdditiveMove` either returns the counter increased by
exactly one or returns the state and the counter it was given; so every completed
`mcAdditiveMove` either increases the counter by exactly one or leaves the counter and the
vectors `x`, `y`, `r` unchanged, and in both cases the counter it returns is not below the
counter it was given. -/
theorem acceptance_counted (s : HDMC) :
    (∀ pI u v counter, (translationMove s pI u v counter).2 = counter + 1 ∨
      translationMove s pI u v counter = (s, counter)) ∧
    (∀ pI pJ u1 v1 u2 v2 counter, (swapMove s pI pJ u1 v1 u2 v2 counter).2 = counter + 1 ∨
      swapMove s pI pJ u1 v1 u2 v2 counter = (s, counter)) ∧
    (∀ counter res, mcAdditiveMove s counter = some res →
      (res.2 = counter + 1 ∨
        (res.2 = counter ∧ res.1.x = s.x ∧ res.1.y = s.y ∧ res.1.r = s.r)) ∧
      counter ≤ res.2) := by
  refine ⟨translationMove_counted s, swapMove_counted s, ?_⟩
  intro counter res h
  have key : res.2 = counter + 1 ∨
      (res.2 = counter ∧ res.1.x = s.x ∧ res.1.y = s.y ∧ res.1.r = s.r) := by
    rcases mcAdditiveMove_cases s counter res h with
      ⟨pI, b, u, v, g, _, _, _, e⟩ | ⟨pI, pJ, b, u1, v1, u2, v2, g, _, _, _, _, _, _, e⟩
    · rcases translationMove_counted { s with mtGen := g } pI u v counter with h1 | h1
      · left; rw [e]; exact h1
      · right; rw [e, h1]; exact ⟨rfl, rfl, rfl, rfl⟩
    · rcases swapMove_counted { s with mtGen := g } pI pJ u1 v1 u2 v2 counter with h1 | h1
      · left; rw [e]; exact h1
      · right; rw [e, h1]; exact ⟨rfl, rfl, rfl, rfl⟩
  refine ⟨key, ?_⟩
  rcases key with h1 | ⟨h1, _⟩ <;> omega

/-- Witness of `acceptance_counted`: the first move of the two-disk configuration
completes, and its counter is 0 or 1. -/
theorem acceptance_counted_witness :
    ∃ res, mcAdditiveMove twoDisks 0 = some res ∧ 0 ≤ res.2 ∧
      (res.2 = 0 + 1 ∨
        (res.2 = 0 ∧ res.1.x = twoDisks.x ∧ res.1.y = twoDisks.y ∧ res.1.r = twoDisks.r)) := by
  obtain ⟨res, h, _⟩ := mcAdditiveMove_completes twoDisks 0 1 twoDisks_tapeSupplies
  exact ⟨res, h, ((acceptance_counted twoDisks).2.2 0 res h).2,
    ((acceptance_counted twoDisks).2.2 0 res h).1⟩

/-! ## The bracketing loop of the calibrator -/

theorem limitSelection_eq (log10 pow10 : ℚ → ℚ) (td tp : List ℚ)
    (t transDelta deltaMin deltaMax : ℚ) :
    (vget tp 10 > t →
      limitSelection log10 pow10 td tp t transDelta deltaMin deltaMax
        = { transDelta := vget td 10, deltaMin := deltaMin, deltaMax := deltaMax,
            optCode := some 2 }) ∧
    (¬ vget tp 10 > t →
      limitSelection log10 pow10 td tp t transDelta deltaMin deltaMax
        = { transDelta := pow10 (1 / 2 *
              (log10 (bracketLoop td tp t 11 0 deltaMin deltaMax).1
                + log10 (bracketLoop td tp t 11 0 deltaMin deltaMax).2)),
            deltaMin := (bracketLoop td tp t 11 0 deltaMin deltaMax).1,
            deltaMax := (bracketLoop td tp t 11 0 deltaMin deltaMax).2,
            optCode := some 0 }) := by
  constructor
  · intro h
    unfold limitSelection upperLimit lowerLimit
    rw [if_pos h]
    split_ifs <;> rfl
  · intro h
    unfold limitSelection upperLimit lowerLimit
    rw [if_neg h]
    split_ifs <;> rfl

/-- From any pass on, the loop is over once the passes allowed reach pass 102. -/
theorem calibrationLoop_terminates (bracket : HDMC → ℚ → ℚ → Option DeltaResult)
    (fuel : Nat) (c : Calibration) (h1 : 1 ≤ fuel) (h2 : 102 ≤ (fuel : Int) + c.iteration) :
    calibrationLoop bracket fuel c ≠ LoopResult.unfinished := by
  induction fuel generalizing c with
  | zero => omega
  | succ fuel ih =>
    unfold calibrationLoop
    split
    · simp
    · split_ifs with a1 a2 a3 a4
      · simp
      · simp
      · simp
      · simp
      · apply ih
        · push_cast at h2; omega
        · show 102 ≤ (fuel : Int) + (c.iteration + 1)
          push_cast at h2; omega

/-- A finished loop was left by the `break` whose condition the last call met, at a value
of `iteration` between the starting value and 101, within the passes allowed. -/
theorem calibrationLoop_finished (bracket : HDMC → ℚ → ℚ → Option DeltaResult)
    (fuel : Nat) (c : Calibration) (last : DeltaResult) (it : Int) (e : LoopExit)
    (h0 : 0 ≤ c.iteration)
    (h : calibrationLoop bracket fuel c = LoopResult.finished last it e) :
    c.iteration ≤ it ∧ it - c.iteration + 1 ≤ fuel ∧ it ≤ max 101 c.iteration ∧
    (e = LoopExit.tooDense → last.optCode = some 1 ∧ it = 0) ∧
    (e = LoopExit.tooDilute → last.optCode = some 2 ∧ it = 0) ∧
    (e = LoopExit.converged → |last.accProb - last.state.acceptTarget| < 5 / 1000) ∧
    (e = LoopExit.limitHit → it > 100) := by
  induction fuel generalizing c with
  | zero => simp [calibrationLoop] at h
  | succ fuel ih =>
    unfold calibrationLoop at h
    split at h
    · simp at h
    · rename_i res hres
      split_ifs at h with a1 a2 a3 a4
      · simp only [LoopResult.finished.injEq] at h
        obtain ⟨e1, e2, e3⟩ := h
        subst e1 e2 e3
        refine ⟨le_refl _, by push_cast; omega, le_max_of_le_right (le_refl _), fun _ => a1, ?_, ?_, ?_⟩
          <;> intro hc <;> simp at hc
      · simp only [LoopResult.finished.injEq] at h
        obtain ⟨e1, e2, e3⟩ := h
        subst e1 e2 e3
        refine ⟨le_refl _, by push_cast; omega, le_max_of_le_right (le_refl _), ?_, fun _ => a2, ?_, ?_⟩
          <;> intro hc <;> simp at hc
      · simp only [LoopResult.finished.injEq] at h
        obtain ⟨e1, e2, e3⟩ := h
        subst e1 e2 e3
        refine ⟨le_refl _, by push_cast; omega, le_max_of_le_right (le_refl _), ?_, ?_, fun _ => a3, ?_⟩
          <;> intro hc <;> simp at hc
      · simp only [LoopResult.finished.injEq] at h
        obtain ⟨e1, e2, e3⟩ := h
        subst e1 e2 e3
        refine ⟨le_refl _, by push_cast; omega, le_max_of_le_right (le_refl _), ?_, ?_, ?_, fun _ => a4⟩
          <;> intro hc <;> simp at hc
      · obtain ⟨b1, b2, b3, b4, b5, b6, b7⟩ := ih _ (by simp only; omega) h
        simp only at b1 b2 b3
        refine ⟨by omega, by push_cast; omega, ?_, b4, b5, b6, b7⟩
        rcases le_max_iff.mp b3 with b3 | b3
        · exact le_max_of_le_left b3
        · exact le_max_of_le_left (by omega)

/-- A pass whose call meets one of the four conditions is the last pass. -/
theorem calibrationLoop_stops (bracket : HDMC → ℚ → ℚ → Option DeltaResult)
    (fuel : Nat) (c : Calibration) (res : DeltaResult)
    (hres : bracket c.state c.deltaMin c.deltaMax = some res)
    (hstop : (res.optCode = some 1 ∧ c.iteration = 0) ∨
      (res.optCode = some 2 ∧ c.iteration = 0) ∨
      |res.accProb - res.state.acceptTarget| < 5 / 1000 ∨ c.iteration > 100) :
    ∃ e, calibrationLoop bracket (fuel + 1) c = LoopResult.finished res c.iteration e := by
  unfold calibrationLoop
  rw [hres]
  simp only
  split_ifs with a1 a2 a3 a4
  · exact ⟨_, rfl⟩
  · exact ⟨_, rfl⟩
  · exact ⟨_, rfl⟩
  · exact ⟨_, rfl⟩
  · rcases hstop with h | h | h | h
    · exact absurd h a1
    · exact absurd h a2
    · exact absurd h a3
    · exact absurd h a4

/-! ## A calibration in which no move is attempted -/

theorem mcCycle_idle (s : HDMC) (h : s.interaction ≠ 0) : mcCycle s = some (s, 0) := by
  unfold mcCycle
  rw [if_neg h]

theorem runCycles_idle (k : Nat) (s : HDMC) (accCount : Int) (h : s.interaction ≠ 0) :
    runCycles k s accCount = some (s, accCount) := by
  induction k generalizing accCount with
  | zero => rfl
  | succ k ih =>
    unfold runCycles
    rw [mcCycle_idle s h]
    simp only [add_zero]
    exact ih accCount

theorem vget_set_zero (tp : List ℚ) (i : Nat) (h : ∀ j, vget tp j = 0) (j : Nat) :
    vget (tp.set i 0) j = 0 := by
  by_cases hij : i = j
  · subst hij
    by_cases hl : i < tp.length
    · exact vget_set_eq tp i 0 hl
    · rw [List.set_eq_of_length_le (not_lt.mp hl)]; exact h i
  · rw [vget_set_ne tp i j 0 hij]; exact h j

theorem vget_replicate_zero (n j : Nat) : vget (List.replicate n (0 : ℚ)) j = 0 := by
  induction n generalizing j with
  | zero => simp [vget]
  | succ n ih =>
    cases j with
    | zero => simp [vget, List.replicate_succ]
    | succ j =>
      have h := ih j
      simp [vget, List.replicate_succ] at h ⊢

theorem trialLoop_idle (td : List ℚ) (k i : Nat) (s : HDMC) (tp : List ℚ)
    (h : s.interaction ≠ 0) (hz : ∀ j, vget tp j = 0) :
    ∃ s1 tp1, trialLoop td k i s tp = some (s1, tp1) ∧ (∀ j, vget tp1 j = 0) ∧
      s1.interaction = s.interaction ∧ s1.acceptTarget = s.acceptTarget := by
  induction k generalizing i s tp with
  | zero => exact ⟨s, tp, rfl, hz, rfl, rfl⟩
  | succ k ih =>
    have h1 := runCycles_idle 10 { s with transDelta := vget td i } 0 h
    obtain ⟨s1, tp1, a1, a2, a3, a4⟩ := ih (i + 1) { s with transDelta := vget td i }
      (tp.set i 0) h (vget_set_zero tp i hz)
    refine ⟨s1, tp1, ?_, a2, a3, a4⟩
    unfold trialLoop
    rw [h1]
    simp only [Int.cast_zero, zero_div]
    exact a1

theorem optimalDelta_eq (log10 pow10 : ℚ → ℚ) (s : HDMC) (deltaMin deltaMax : ℚ)
    (s1 : HDMC) (tp : List ℚ) (s2 : HDMC) (accCount : Int)
    (h1 : trialLoop (trialDeltas log10 pow10 deltaMin deltaMax) 11 0 s (List.replicate 11 0)
      = some (s1, tp))
    (h2 : runCycles 10
      { s1 with transDelta := (limitSelection log10 pow10
          (trialDeltas log10 pow10 deltaMin deltaMax) tp s1.acceptTarget s1.transDelta
          deltaMin deltaMax).transDelta } 0 = some (s2, accCount)) :
    optimalDelta log10 pow10 s deltaMin deltaMax
      = some { state := s2,
               deltaMin := (limitSelection log10 pow10
                 (trialDeltas log10 pow10 deltaMin deltaMax) tp s1.acceptTarget
                 s1.transDelta deltaMin deltaMax).deltaMin,
               deltaMax := (limitSelection log10 pow10
                 (trialDeltas log10 pow10 deltaMin deltaMax) tp s1.acceptTarget
                 s1.transDelta deltaMin deltaMax).deltaMax,
               accProb := (accCount : ℚ) / (10 * (s2.n : ℚ)),
               optCode := (limitSelection log10 pow10
                 (trialDeltas log10 pow10 deltaMin deltaMax) tp s1.acceptTarget
                 s1.transDelta deltaMin deltaMax).optCode } := by
  simp only [optimalDelta, h1, h2]

theorem optimalDelta_idle (log10 pow10 : ℚ → ℚ) (s : HDMC) (deltaMin deltaMax : ℚ)
    (h : s.interaction ≠ 0) (ht : s.acceptTarget = 1 / 2) :
    ∃ res, optimalDelta log10 pow10 s deltaMin deltaMax = some res ∧ res.accProb = 0 ∧
      res.optCode = some 0 ∧ res.state.interaction ≠ 0 ∧ res.state.acceptTarget = 1 / 2 := by
  obtain ⟨s1, tp1, a1, a2, a3, a4⟩ := trialLoop_idle (trialDeltas log10 pow10 deltaMin deltaMax)
    11 0 s (List.replicate 11 0) h (vget_replicate_zero 11)
  have h1 : s1.interaction ≠ 0 := by rw [a3]; exact h
  have hlim := (limitSelection_eq log10 pow10 (trialDeltas log10 pow10 deltaMin deltaMax) tp1
    s1.acceptTarget s1.transDelta deltaMin deltaMax).2
    (by rw [a2 10, a4, ht]; norm_num)
  have h2 := runCycles_idle 10
    { s1 with transDelta := (limitSelection log10 pow10
        (trialDeltas log10 pow10 deltaMin deltaMax) tp1 s1.acceptTarget s1.transDelta
        deltaMin deltaMax).transDelta } 0 h1
  refine ⟨_, optimalDelta_eq log10 pow10 s deltaMin deltaMax s1 tp1 _ 0 a1 h2, ?_, ?_, h1, ?_⟩
  · simp
  · simp only [hlim]
  · show s1.acceptTarget = 1 / 2
    rw [a4, ht]

theorem calibrationLoop_idle (log10 pow10 : ℚ → ℚ) (fuel : Nat) (c : Calibration)
    (h : c.state.interaction ≠ 0) (ht : c.state.acceptTarget = 1 / 2) (h0 : 0 ≤ c.iteration)
    (h1 : c.iteration ≤ 101) :
    ((fuel : Int) + c.iteration ≤ 101 →
      calibrationLoop (optimalDelta log10 pow10) fuel c = LoopResult.unfinished) ∧
    (102 ≤ (fuel : Int) + c.iteration →
      ∃ last, calibrationLoop (optimalDelta log10 pow10) fuel c
        = LoopResult.finished last 101 LoopExit.limitHit) := by
  induction fuel generalizing c with
  | zero =>
    exact ⟨fun _ => rfl, fun h2 => absurd h2 (by push_cast; omega)⟩
  | succ fuel ih =>
    obtain ⟨res, a1, a2, a3, a4, a5⟩ :=
      optimalDelta_idle log10 pow10 c.state c.deltaMin c.deltaMax h ht
    have n1 : ¬ (res.optCode = some 1 ∧ c.iteration = 0) := by
      rw [a3]; intro hh; exact absurd hh.1 (by decide)
    have n2 : ¬ (res.optCode = some 2 ∧ c.iteration = 0) := by
      rw [a3]; intro hh; exact absurd hh.1 (by decide)
    have n3 : ¬ |res.accProb - res.state.acceptTarget| < 5 / 1000 := by
      rw [a2, a5]; norm_num [abs_of_pos]
    unfold calibrationLoop
    rw [a1]
    simp only [n1, n2, n3, if_false]
    by_cases hlim : c.iteration > 100
    · rw [if_pos hlim]
      have hit : c.iteration = 101 := by omega
      exact ⟨fun h2 => absurd h2 (by push_cast; omega), fun _ => ⟨res, by rw [hit]⟩⟩
    · rw [if_neg hlim]
      obtain ⟨b1, b2⟩ := ih
        { state := res.state, deltaMin := res.deltaMin, deltaMax := res.deltaMax,
          iteration := c.iteration + 1 } a4 a5 (by simp only; omega) (by simp only; omega)
      simp only at b1 b2
      exact ⟨fun h2 => b1 (by push_cast at h2; omega), fun h2 => b2 (by push_cast at h2; omega)⟩

theorem twoDisksIdle_idle :
    twoDisksIdle.interaction ≠ 0 ∧ twoDisksIdle.acceptTarget = 1 / 2 := by
  constructor
  · simp [twoDisksIdle, twoDisksNonAdditive, setParticles]
  · rfl

/-- Claim C13, as stated, fails: for the two-disk configuration with interaction code 1
and target 1/2 every call of `optimalDelta` returns code 0 and acceptance 0, and the
convergence loop is not over after 100 calls of `optimalDelta`, nor after 101. -/
theorem calibration_hundred_counterexample :
    calibration (fun x => x) (fun x => x) 100 twoDisksIdle = LoopResult.unfinished ∧
    calibration (fun x => x) (fun x => x) 101 twoDisksIdle = LoopResult.unfinished :=
  ⟨(calibrationLoop_idle _ _ 100 _ twoDisksIdle_idle.1 twoDisksIdle_idle.2 (le_refl 0)
      (by decide)).1 (by decide),
    (calibrationLoop_idle _ _ 101 _ twoDisksIdle_idle.1 twoDisksIdle_idle.2 (le_refl 0)
      (by decide)).1 (by decide)⟩

theorem calibrationLoop_not_stuck (bracket : HDMC → ℚ → ℚ → Option DeltaResult)
    (hb : ∀ s a b, bracket s a b ≠ none) (fuel : Nat) (c : Calibration) :
    calibrationLoop bracket fuel c ≠ LoopResult.stuck := by
  induction fuel generalizing c with
  | zero => simp [calibrationLoop]
  | succ fuel ih =>
    unfold calibrationLoop
    split
    · rename_i hn
      exact absurd hn (hb _ _ _)
    · split_ifs
      · simp
      · simp
      · simp
      · simp
      · exact ih _

/-- Claim C13, amended: started with `iteration = 0`, the convergence loop is over within
102 passes, that is, 102 calls of the bracketing routine, whatever the calls return; it
does end by a `break` when every call returns.  A loop that has ended by a `break` has made
`iteration + 1` calls, with `iteration` at most 101, and was left on code 1 or code 2 in
the first pass, on `|accProb − target| < 0.005`, or on `iteration > 100`; and a pass in
which one of these conditions holds is the last one. -/
theorem calibration_terminates (bracket : HDMC → ℚ → ℚ → Option DeltaResult)
    (c : Calibration) (hc : c.iteration = 0) :
    (∀ fuel, 102 ≤ fuel → calibrationLoop bracket fuel c ≠ LoopResult.unfinished) ∧
    ((∀ s a b, bracket s a b ≠ none) →
      ∃ last it e, calibrationLoop bracket 102 c = LoopResult.finished last it e) ∧
    (∀ fuel last it e, calibrationLoop bracket fuel c = LoopResult.finished last it e →
      0 ≤ it ∧ it + 1 ≤ fuel ∧ it ≤ 101 ∧
      (e = LoopExit.tooDense → last.optCode = some 1 ∧ it = 0) ∧
      (e = LoopExit.tooDilute → last.optCode = some 2 ∧ it = 0) ∧
      (e = LoopExit.converged → |last.accProb - last.state.acceptTarget| < 5 / 1000) ∧
      (e = LoopExit.limitHit → it > 100)) ∧
    (∀ fuel (c1 : Calibration) res, bracket c1.state c1.deltaMin c1.deltaMax = some res →
      ((res.optCode = some 1 ∧ c1.iteration = 0) ∨ (res.optCode = some 2 ∧ c1.iteration = 0) ∨
        |res.accProb - res.state.acceptTarget| < 5 / 1000 ∨ c1.iteration > 100) →
      ∃ e, calibrationLoop bracket (fuel + 1) c1
        = LoopResult.finished res c1.iteration e) := by
  have t1 : ∀ fuel, 102 ≤ fuel → calibrationLoop bracket fuel c ≠ LoopResult.unfinished := by
    intro fuel hf
    exact calibrationLoop_terminates bracket fuel c (by omega) (by rw [hc]; omega)
  refine ⟨t1, ?_, ?_, fun fuel c1 res => calibrationLoop_stops bracket fuel c1 res⟩
  · intro hb
    have h1 := t1 102 (le_refl _)
    have h2 := calibrationLoop_not_stuck bracket hb 102 c
    cases hres : calibrationLoop bracket 102 c with
    | finished last it e => exact ⟨last, it, e, rfl⟩
    | stuck => exact absurd hres h2
    | unfinished => exact absurd hres h1
  · intro fuel last it e h
    obtain ⟨b1, b2, b3, b4, b5, b6, b7⟩ :=
      calibrationLoop_finished bracket fuel c last it e (by rw [hc]) h
    rw [hc] at b1 b2 b3
    refine ⟨b1, by omega, ?_, b4, b5, b6, b7⟩
    simpa using b3

/-- Witness of `calibration_terminates`: the calibration of the two-disk configuration
with interaction code 1 and target 1/2 ends in pass 102, on `iteration = 101 > 100`. -/
theorem calibration_terminates_witness :
    calibration (fun x => x) (fun x => x) 102 twoDisksIdle ≠ LoopResult.unfinished ∧
    ∃ last, calibration (fun x => x) (fun x => x) 102 twoDisksIdle
      = LoopResult.finished last 101 LoopExit.limitHit :=
  ⟨(calibration_terminates (optimalDelta (fun x => x) (fun x => x))
      { state := twoDisksIdle, deltaMin := 1 / 100 * vMinimum twoDisksIdle.r,
        deltaMax := twoDisksIdle.cellLen_2, iteration := 0 } rfl).1 102 (le_refl _),
    (calibrationLoop_idle _ _ 102 _ twoDisksIdle_idle.1 twoDisksIdle_idle.2 (le_refl 0)
      (by decide)).2 (by decide)⟩

/-! ## The overlap check of the initial configuration -/

theorem overlapInner_iff (s : HDMC) (i k j : Nat) (b : Bool) :
    overlapInner s i k j b = true ↔
      b = true ∧ ∀ j1, j ≤ j1 → j1 < j + k → ¬ Overlap s i j1 := by
  induction k generalizing j with
  | zero =>
    simp only [overlapInner]
    exact ⟨fun h => ⟨h, fun j1 h1 h2 => absurd h2 (by omega)⟩, fun h => h.1⟩
  | succ k ih =>
    unfold overlapInner
    split_ifs with hov
    · constructor
      · intro h; exact absurd h (by simp)
      · intro h; exact absurd hov (h.2 j (le_refl j) (by omega))
    · rw [ih (j + 1)]
      constructor
      · intro h
        refine ⟨h.1, fun j1 h1 h2 => ?_⟩
        by_cases hj : j1 = j
        · subst hj; exact hov
        · exact h.2 j1 (by omega) (by omega)
      · intro h
        exact ⟨h.1, fun j1 h1 h2 => h.2 j1 (by omega) (by omega)⟩

theorem overlapOuter_iff (s : HDMC) (k i : Nat) (b : Bool) :
    overlapOuter s k i b = true ↔
      b = true ∧ ∀ i1, i ≤ i1 → i1 < i + k → ∀ j1, i1 < j1 → j1 < s.n → ¬ Overlap s i1 j1 := by
  induction k generalizing i b with
  | zero =>
    simp only [overlapOuter]
    exact ⟨fun h => ⟨h, fun i1 h1 h2 => absurd h2 (by omega)⟩, fun h => h.1⟩
  | succ k ih =>
    unfold overlapOuter
    rw [ih (i + 1), overlapInner_iff]
    constructor
    · intro h
      refine ⟨h.1.1, fun i1 h1 h2 j1 h3 h4 => ?_⟩
      by_cases hi : i1 = i
      · subst hi; exact h.1.2 j1 (by omega) (by omega)
      · exact h.2 i1 (by omega) (by omega) j1 h3 h4
    · intro h
      exact ⟨⟨h.1, fun j1 h1 h2 => h.2 i (le_refl i) (by omega) j1 (by omega) (by omega)⟩,
        fun i1 h1 h2 j1 h3 h4 => h.2 i1 (by omega) (by omega) j1 h3 h4⟩

theorem overlapCheck_iff (s : HDMC) :
    overlapCheck s = true ↔ ∀ i j, i < j → j < s.n → ¬ Overlap s i j := by
  unfold overlapCheck
  rw [overlapOuter_iff]
  constructor
  · intro h i j hij hj
    exact h.2 i (Nat.zero_le i) (by omega) j hij hj
  · intro h
    exact ⟨rfl, fun i1 _ _ j1 h3 h4 => h i1 j1 h3 h4⟩

theorem overlapCheck_nonOverlapping (s : HDMC) (h : overlapCheck s = true) :
    NonOverlapping s := by
  rw [overlapCheck_iff] at h
  intro i j hi hj hij
  rcases Nat.lt_or_gt_of_ne hij with hlt | hgt
  · exact h i j hlt hj
  · rw [overlap_symm]; exact h j i hgt hi

theorem attemptLoop_resolved (minimise : HDMC → Nat → List ℚ → List ℚ) (k : Nat)
    (s s1 : HDMC) (h : attemptLoop minimise k s = some (s1, true)) :
    overlapCheck s1 = true := by
  induction k generalizing s with
  | zero => simp [attemptLoop] at h
  | succ k ih =>
    unfold attemptLoop at h
    split at h
    · exact absurd h (by simp)
    · rename_i s2 _
      split_ifs at h with hr
      · simp only [Option.some.injEq, Prod.mk.injEq, and_true] at h
        rw [← h]
        exact hr
      · exact ih _ h

/-- Claim C18: the check at the end of `resolvePositions` yields `true` exactly when no
pair `i < j` of the `n` particles has a squared minimum-image distance below
`(r_i + r_j)²`; the flag that `resolvePositions` returns is that check on the coordinates
it stores; and a state that `initialiseConfiguration` leaves with return code 0 has no
overlapping pair of distinct particles. -/
theorem overlapCheck_exact (pi : ℚ) (sqrt : ℚ → ℚ)
    (minimise : HDMC → Nat → List ℚ → List ℚ) (s : HDMC) :
    (overlapCheck s = true ↔ ∀ i j, i < j → j < s.n → ¬ Overlap s i j) ∧
    (resolvePositions minimise s).2 = overlapCheck (resolvePositions minimise s).1 ∧
    (∀ s1, initialiseConfiguration pi sqrt minimise s = some (s1, 0) →
      NonOverlapping s1) := by
  refine ⟨overlapCheck_iff s, rfl, ?_⟩
  intro s1 h
  unfold initialiseConfiguration at h
  split at h
  · exact absurd h (by simp)
  · rename_i s2 resolved hat
    simp only [Option.some.injEq, Prod.mk.injEq] at h
    obtain ⟨h1, h2⟩ := h
    subst h1
    cases resolved with
    | true => exact overlapCheck_nonOverlapping _ (attemptLoop_resolved minimise 100 _ _ hat)
    | false => simp at h2

theorem scheduleLoop_noRelaxation (s : HDMC) (m k : Nat) (xy : List ℚ) :
    scheduleLoop noRelaxation s m k xy = xy := by
  induction m generalizing k xy with
  | zero => rfl
  | succ m ih =>
    unfold scheduleLoop
    rw [ih]
    rfl

theorem nearbyint_three_tenths : nearbyint (3 / 10) = 0 :=
  nearbyint_eq_zero _ (by norm_num [abs_of_pos])

theorem freshDisks_placed :
    generateRandomPositions (cellSetup (22 / 7) (fun _ => 10) freshDisks)
      = some placedDisks := by
  simp only [generateRandomPositions, cellSetup, freshDisks, generateRandomPositionsLoop,
    rand01, placeParticle, placedDisks]
  norm_num [nearbyint_zero, nearbyint_three_tenths]
  exact ⟨rfl, rfl, rfl⟩

theorem placedDisks_check : overlapCheck placedDisks = true := by
  rw [overlapCheck_iff]
  intro i j hij hj
  have hn : placedDisks.n = 2 := rfl
  rw [hn] at hj
  have hi0 : i = 0 := by omega
  have hj1 : j = 1 := by omega
  subst hi0 hj1
  simp only [Overlap, placedDisks, vget, distSq, List.getD_cons_zero, List.getD_cons_succ]
  norm_num
  rw [wrap_ten_div 0 (by norm_num), wrap_ten_div (-3) (by norm_num)]
  norm_num

theorem placedDisks_resolved :
    resolvePositions noRelaxation placedDisks = (placedDisks, true) := by
  have hp : packLoop placedDisks 2 0 (List.replicate (2 * 2) 0) = [0, 0, 3, 0] := by
    simp [packLoop, vget, List.replicate, placedDisks]
  have hx : unpackLoop [0, 0, 3, 0] 2 0 placedDisks = placedDisks := by
    simp [unpackLoop, vget, placedDisks]
  show (unpackLoop (scheduleLoop noRelaxation placedDisks 101 1
      (packLoop placedDisks 2 0 (List.replicate (2 * 2) 0))) 2 0 placedDisks,
    overlapCheck (unpackLoop (scheduleLoop noRelaxation placedDisks 101 1
      (packLoop placedDisks 2 0 (List.replicate (2 * 2) 0))) 2 0 placedDisks))
    = (placedDisks, true)
  rw [scheduleLoop_noRelaxation, hp, hx, placedDisks_check]

theorem freshDisks_initialised :
    initialiseConfiguration (22 / 7) (fun _ => 10) noRelaxation freshDisks
      = some (placedDisks, 0) := by
  have h : attemptLoop noRelaxation (99 + 1) (cellSetup (22 / 7) (fun _ => 10) freshDisks)
      = some (placedDisks, true) := by
    unfold attemptLoop
    rw [freshDisks_placed]
    simp only [placedDisks_resolved, if_true]
  unfold initialiseConfiguration
  rw [show (100 : Nat) = 99 + 1 from rfl, h]
  rfl

/-- Witness of `overlapCheck_exact`: `initialiseConfiguration` on two disks of radius 1
that the draws place at `(0,0)` and `(3,0)` returns 0, and the state it leaves has no
overlapping pair. -/
theorem overlapCheck_exact_witness :
    initialiseConfiguration (22 / 7) (fun _ => 10) noRelaxation freshDisks
      = some (placedDisks, 0) ∧ NonOverlapping placedDisks :=
  ⟨freshDisks_initialised,
    (overlapCheck_exact (22 / 7) (fun _ => 10) noRelaxation freshDisks).2.2 placedDisks
      freshDisks_initialised⟩

/-! ## The cell set-up -/

theorem placed_trans {s t u : HDMC} (h1 : Placed s t) (h2 : Placed t u) : Placed s u := by
  unfold Placed at *
  rw [h2, h1]

theorem generateRandomPositionsLoop_placed (k i : Nat) (s s1 : HDMC)
    (h : generateRandomPositionsLoop k i s = some s1) : Placed s s1 := by
  induction k generalizing i s with
  | zero =>
    simp only [generateRandomPositionsLoop, Option.some.injEq] at h
    subst h; rfl
  | succ k ih =>
    unfold generateRandomPositionsLoop at h
    split at h
    · exact absurd h (by simp)
    · rename_i u g1 _
      split at h
      · exact absurd h (by simp)
      · rename_i v g2 _
        exact placed_trans (s := s) (t := placeParticle { s with mtGen := g2 } i u v) rfl
          (ih _ _ h)

theorem unpackLoop_placed (xy : List ℚ) (k i : Nat) (s : HDMC) :
    Placed s (unpackLoop xy k i s) := by
  induction k generalizing i s with
  | zero => rfl
  | succ k ih =>
    unfold unpackLoop
    exact placed_trans (s := s)
      (t := { s with x := s.x.set i (vget xy (2 * i)), y := s.y.set i (vget xy (2 * i + 1)) })
      rfl (ih _ _)

theorem attemptLoop_placed (minimise : HDMC → Nat → List ℚ → List ℚ) (k : Nat) (s : HDMC)
    (res : HDMC × Bool) (h : attemptLoop minimise k s = some res) : Placed s res.1 := by
  induction k generalizing s with
  | zero =>
    simp only [attemptLoop, Option.some.injEq] at h
    subst h; rfl
  | succ k ih =>
    unfold attemptLoop at h
    split at h
    · exact absurd h (by simp)
    · rename_i s1 hg
      have m1 : Placed s s1 := generateRandomPositionsLoop_placed _ _ _ _ hg
      have m2 : Placed s1 (resolvePositions minimise s1).1 := unpackLoop_placed _ _ _ _
      split_ifs at h
      · simp only [Option.some.injEq] at h
        subst h
        exact placed_trans m1 m2
      · exact placed_trans (placed_trans m1 m2) (ih _ h)

theorem cellSetup_mono (pi : ℚ) (sqrt : ℚ → ℚ) (s : HDMC) (hd : s.dispersity = 1)
    (hn : 0 < s.n) (hr : 0 < vget s.dispersityParams 0) (hpi : 0 < pi)
    (hsq : sqrt (((s.n : ℚ) * pi * vget s.dispersityParams 0 ^ 2) / s.phi)
        * sqrt (((s.n : ℚ) * pi * vget s.dispersityParams 0 ^ 2) / s.phi)
      = ((s.n : ℚ) * pi * vget s.dispersityParams 0 ^ 2) / s.phi) :
    (cellSetup pi sqrt s).cellLen
      = sqrt (((s.n : ℚ) * pi * vget s.dispersityParams 0 ^ 2) / s.phi) ∧
    (cellSetup pi sqrt s).r = List.replicate s.n (vget s.dispersityParams 0) ∧
    pi * ((cellSetup pi sqrt s).r.map fun a => a ^ 2).sum / (cellSetup pi sqrt s).cellLen ^ 2
      = s.phi ∧
    (cellSetup pi sqrt s).rCellLen = 1 / (cellSetup pi sqrt s).cellLen ∧
    (cellSetup pi sqrt s).cellLen_2 = (cellSetup pi sqrt s).cellLen / 2 := by
  have hr1 : (cellSetup pi sqrt s).r = List.replicate s.n (vget s.dispersityParams 0) := by
    simp [cellSetup, hd]
  refine ⟨rfl, hr1, ?_, rfl, rfl⟩
  rw [hr1]
  have hL : (cellSetup pi sqrt s).cellLen ^ 2
      = ((s.n : ℚ) * pi * vget s.dispersityParams 0 ^ 2) / s.phi := by
    rw [sq]; exact hsq
  rw [hL, List.map_replicate, List.sum_replicate, nsmul_eq_mul]
  have hn' : (0 : ℚ) < (s.n : ℚ) := by exact_mod_cast hn
  have h1 : (s.n : ℚ) * pi * vget s.dispersityParams 0 ^ 2 ≠ 0 := by positivity
  field_simp
  ring

/-- Claim C19: for mono dispersity with `n > 0`, `r₀ > 0`, `φ > 0` (and `π > 0`, `sqrt` exact
on the area `n·π·r₀²/φ`), the cell set-up of `initialiseConfiguration` stores
`cellLen = sqrt (n·π·r₀²/φ)`, assigns `n` radii equal to `r₀`, so that
`π·Σ r_i² / cellLen² = φ`, and stores `rCellLen = 1/cellLen` and `cellLen_2 = cellLen/2`;
these values are still in the state that a completed `initialiseConfiguration` leaves. -/
theorem cellSize_derivation (pi : ℚ) (sqrt : ℚ → ℚ)
    (minimise : HDMC → Nat → List ℚ → List ℚ) (s : HDMC) (hd : s.dispersity = 1)
    (hn : 0 < s.n) (hr : 0 < vget s.dispersityParams 0) (_hphi : 0 < s.phi) (hpi : 0 < pi)
    (hsq : sqrt (((s.n : ℚ) * pi * vget s.dispersityParams 0 ^ 2) / s.phi)
        * sqrt (((s.n : ℚ) * pi * vget s.dispersityParams 0 ^ 2) / s.phi)
      = ((s.n : ℚ) * pi * vget s.dispersityParams 0 ^ 2) / s.phi) :
    ((cellSetup pi sqrt s).cellLen
        = sqrt (((s.n : ℚ) * pi * vget s.dispersityParams 0 ^ 2) / s.phi) ∧
      (cellSetup pi sqrt s).r = List.replicate s.n (vget s.dispersityParams 0) ∧
      pi * ((cellSetup pi sqrt s).r.map fun a => a ^ 2).sum
          / (cellSetup pi sqrt s).cellLen ^ 2 = s.phi ∧
      (cellSetup pi sqrt s).rCellLen = 1 / (cellSetup pi sqrt s).cellLen ∧
      (cellSetup pi sqrt s).cellLen_2 = (cellSetup pi sqrt s).cellLen / 2) ∧
    (∀ s1 code, initialiseConfiguration pi sqrt minimise s = some (s1, code) →
      s1.cellLen = sqrt (((s.n : ℚ) * pi * vget s.dispersityParams 0 ^ 2) / s.phi) ∧
      s1.r = List.replicate s.n (vget s.dispersityParams 0) ∧
      pi * (s1.r.map fun a => a ^ 2).sum / s1.cellLen ^ 2 = s.phi ∧
      s1.rCellLen = 1 / s1.cellLen ∧ s1.cellLen_2 = s1.cellLen / 2) := by
  have hc := cellSetup_mono pi sqrt s hd hn hr hpi hsq
  refine ⟨hc, ?_⟩
  intro s1 code h
  unfold initialiseConfiguration at h
  split at h
  · exact absurd h (by simp)
  · rename_i s2 resolved hat
    simp only [Option.some.injEq, Prod.mk.injEq] at h
    obtain ⟨h1, _⟩ := h
    subst h1
    have hm := attemptLoop_placed minimise 100 _ (s2, resolved) hat
    unfold Placed at hm
    simp only at hm
    have e1 : s2.cellLen = (cellSetup pi sqrt s).cellLen := by rw [hm]
    have e2 : s2.rCellLen = (cellSetup pi sqrt s).rCellLen := by rw [hm]
    have e3 : s2.cellLen_2 = (cellSetup pi sqrt s).cellLen_2 := by rw [hm]
    have e4 : s2.r = (cellSetup pi sqrt s).r := by rw [hm]
    rw [e1, e2, e3, e4]
    exact hc

/-- Witness of `cellSize_derivation`: two disks of radius 1 at packing fraction 11/175 with
22/7 in place of `M_PI`: the area is 100 and the cell length 10. -/
theorem cellSize_derivation_witness :
    freshDisks.dispersity = 1 ∧ 0 < freshDisks.n ∧ 0 < vget freshDisks.dispersityParams 0 ∧
    0 < freshDisks.phi ∧
    (cellSetup (22 / 7) (fun _ => 10) freshDisks).cellLen = 10 ∧
    (22 / 7 : ℚ) * ((cellSetup (22 / 7) (fun _ => 10) freshDisks).r.map fun a => a ^ 2).sum
        / (cellSetup (22 / 7) (fun _ => 10) freshDisks).cellLen ^ 2 = 11 / 175 := by
  have h3 : 0 < vget freshDisks.dispersityParams 0 := by norm_num [freshDisks, vget]
  have h4 : 0 < freshDisks.phi := by norm_num [freshDisks]
  have hw := cellSize_derivation (22 / 7) (fun _ => 10) noRelaxation freshDisks rfl
    (by decide) h3 h4 (by norm_num) (by norm_num [freshDisks, vget])
  exact ⟨rfl, by decide, h3, h4, hw.1.1, hw.1.2.2.1⟩

/-! ## The pairs visited by `calculateRDF` -/

theorem binned_refl (s : HDMC) : Binned s s := ⟨rfl, rfl⟩

theorem binned_trans {s t u : HDMC} (h1 : Binned s t) (h2 : Binned t u) : Binned s u := by
  obtain ⟨a1, a2⟩ := h1
  obtain ⟨b1, b2⟩ := h2
  refine ⟨?_, b2.trans a2⟩
  rw [b1, a1]

theorem binned_n {s t : HDMC} (h : Binned s t) : t.n = s.n := by
  rw [h.1]

theorem rdfPair_binned (sqrt : ℚ → ℚ) (s : HDMC) (i j : Nat) :
    Binned s (rdfPair sqrt s i j) := by
  unfold rdfPair
  simp only
  split_ifs
  · exact ⟨rfl, by simp⟩
  · exact binned_refl s

theorem rdfInner_eq (sqrt : ℚ → ℚ) (i k j : Nat) (s : HDMC) :
    rdfInner sqrt i k j s
      = (pairsInner i k j).foldl (fun t p => rdfPair sqrt t p.1 p.2) s := by
  induction k generalizing j s with
  | zero => rfl
  | succ k ih =>
    unfold rdfInner pairsInner
    rw [ih]
    rfl

theorem foldl_rdfPair_binned (sqrt : ℚ → ℚ) (l : List (Nat × Nat)) (s : HDMC) :
    Binned s (l.foldl (fun t p => rdfPair sqrt t p.1 p.2) s) := by
  induction l generalizing s with
  | nil => exact binned_refl s
  | cons p l ih =>
    simp only [List.foldl_cons]
    exact binned_trans (rdfPair_binned sqrt s p.1 p.2) (ih _)

theorem rdfOuter_eq (sqrt : ℚ → ℚ) (k i : Nat) (s : HDMC) :
    rdfOuter sqrt k i s
      = (pairsOuter s.n k i).foldl (fun t p => rdfPair sqrt t p.1 p.2) s := by
  induction k generalizing i s with
  | zero => rfl
  | succ k ih =>
    unfold rdfOuter pairsOuter
    rw [ih, rdfInner_eq, List.foldl_append]
    rw [binned_n (foldl_rdfPair_binned sqrt _ s)]

theorem calculateRDF_eq (sqrt : ℚ → ℚ) (s : HDMC) :
    calculateRDF sqrt s
      = (visitedPairs s.n).foldl (fun t p => rdfPair sqrt t p.1 p.2) s :=
  rdfOuter_eq sqrt (s.n - 1) 0 s

theorem mem_pairsInner (i k j : Nat) (p : Nat × Nat) :
    p ∈ pairsInner i k j ↔ p.1 = i ∧ j ≤ p.2 ∧ p.2 < j + k := by
  induction k generalizing j with
  | zero =>
    simp only [pairsInner, List.not_mem_nil, false_iff]
    intro h; omega
  | succ k ih =>
    unfold pairsInner
    rw [List.mem_cons, ih]
    constructor
    · rintro (h | h)
      · subst h; exact ⟨rfl, le_refl _, by simp⟩
      · exact ⟨h.1, by omega, by omega⟩
    · intro h
      by_cases hj : p.2 = j
      · left; exact Prod.ext h.1 hj
      · right; exact ⟨h.1, by omega, by omega⟩

theorem mem_pairsOuter (n k i : Nat) (p : Nat × Nat) :
    p ∈ pairsOuter n k i ↔ i ≤ p.1 ∧ p.1 < i + k ∧ p.1 < p.2 ∧ p.2 < n := by
  induction k generalizing i with
  | zero =>
    simp only [pairsOuter, List.not_mem_nil, false_iff]
    intro h; omega
  | succ k ih =>
    unfold pairsOuter
    rw [List.mem_append, mem_pairsInner, ih]
    constructor
    · rintro (h | h)
      · refine ⟨by omega, by omega, by omega, by omega⟩
      · exact ⟨by omega, by omega, h.2.2.1, h.2.2.2⟩
    · intro h
      by_cases hi : p.1 = i
      · left; exact ⟨hi, by omega, by omega⟩
      · right; exact ⟨by omega, by omega, h.2.2.1, h.2.2.2⟩

theorem nodup_pairsInner (i k j : Nat) : (pairsInner i k j).Nodup := by
  induction k generalizing j with
  | zero => exact List.nodup_nil
  | succ k ih =>
    unfold pairsInner
    rw [List.nodup_cons]
    refine ⟨?_, ih (j + 1)⟩
    rw [mem_pairsInner]
    intro h
    simp only at h
    omega

theorem nodup_pairsOuter (n k i : Nat) : (pairsOuter n k i).Nodup := by
  induction k generalizing i with
  | zero => exact List.nodup_nil
  | succ k ih =>
    unfold pairsOuter
    rw [List.nodup_append]
    refine ⟨nodup_pairsInner _ _ _, ih (i + 1), ?_⟩
    intro p h1 h2
    rw [mem_pairsInner] at h1
    rw [mem_pairsOuter] at h2
    omega

theorem mem_visitedPairs (n : Nat) (i j : Nat) :
    (i, j) ∈ visitedPairs n ↔ i < j ∧ j < n := by
  unfold visitedPairs
  rw [mem_pairsOuter]
  simp only
  constructor
  · intro h; exact ⟨h.2.2.1, h.2.2.2⟩
  · intro h; exact ⟨Nat.zero_le i, by omega, h.1, h.2⟩

/-! ## Binning of one pair -/

theorem iget_set_eq (v : List Int) (i : Nat) (a : Int) (h : i < v.length) :
    iget (v.set i a) i = a := by
  simp [iget, List.getD_eq_getElem?_getD, h]

theorem iget_set_ne (v : List Int) (i j : Nat) (a : Int) (h : i ≠ j) :
    iget (v.set i a) j = iget v j := by
  simp [iget, List.getD_eq_getElem?_getD, List.getElem?_set_ne h]

theorem rdfPair_counted (sqrt : ℚ → ℚ) (s : HDMC) (i j : Nat)
    (h : pairDistance sqrt s i j < s.cellLen_2) :
    rdfPair sqrt s i j
      = { s with
          rdfHist := List.set s.rdfHist (⌊pairDistance sqrt s i j / s.rdfDelta⌋).toNat
            (iget s.rdfHist (⌊pairDistance sqrt s i j / s.rdfDelta⌋).toNat + 2) } := by
  unfold rdfPair
  simp only
  rw [if_pos h]

theorem rdfPair_discarded (sqrt : ℚ → ℚ) (s : HDMC) (i j : Nat)
    (h : s.cellLen_2 ≤ pairDistance sqrt s i j) :
    rdfPair sqrt s i j = s := by
  unfold rdfPair
  simp only
  rw [if_neg (not_lt.mpr h)]

theorem bin_valid (d H delta : ℚ) (h0 : 0 ≤ d) (hd : d < H) (hdelta : 0 < delta) :
    0 ≤ ⌊d / delta⌋ ∧ ⌊d / delta⌋ < ⌊H / delta⌋ + 1 ∧
    (⌊d / delta⌋).toNat < (⌊H / delta⌋ + 1).toNat := by
  have h1 : 0 ≤ ⌊d / delta⌋ := Int.floor_nonneg.mpr (div_nonneg h0 hdelta.le)
  have h2 : ⌊d / delta⌋ ≤ ⌊H / delta⌋ :=
    Int.floor_mono (div_le_div_of_nonneg_right hd.le hdelta.le)
  refine ⟨h1, by omega, ?_⟩
  omega

/-- Claim C14: for a non-negative `sqrt`, bin width `Δ > 0`, `cellLen_2 = L/2` and a
histogram of `floor(cellLen_2/Δ)+1` bins, `calculateRDF` applies the binning of one pair
to the pairs `i < j < n`, each pair once; the binning of a pair leaves everything but the
entries of the histogram as it was; a pair with distance `d < L/2` has a bin index
`0 ≤ floor(d/Δ) < floor((L/2)/Δ)+1` inside the histogram and adds 2 to that bin and
nothing to any other; a pair with `d ≥ L/2` changes nothing. -/
theorem rdf_binning (sqrt : ℚ → ℚ) (hs : ∀ a, 0 ≤ sqrt a) (s : HDMC)
    (hdelta : 0 < s.rdfDelta)
    (hlen : s.rdfHist.length = (⌊s.cellLen_2 / s.rdfDelta⌋ + 1).toNat)
    (hhalf : s.cellLen_2 = s.cellLen / 2) :
    (calculateRDF sqrt s
        = (visitedPairs s.n).foldl (fun t p => rdfPair sqrt t p.1 p.2) s ∧
      (visitedPairs s.n).Nodup ∧
      ∀ i j, (i, j) ∈ visitedPairs s.n ↔ i < j ∧ j < s.n) ∧
    (∀ i j, Binned s (rdfPair sqrt s i j)) ∧
    (∀ i j, pairDistance sqrt s i j < s.cellLen / 2 →
      0 ≤ ⌊pairDistance sqrt s i j / s.rdfDelta⌋ ∧
      ⌊pairDistance sqrt s i j / s.rdfDelta⌋ < ⌊s.cellLen / 2 / s.rdfDelta⌋ + 1 ∧
      (⌊pairDistance sqrt s i j / s.rdfDelta⌋).toNat < s.rdfHist.length ∧
      iget (rdfPair sqrt s i j).rdfHist (⌊pairDistance sqrt s i j / s.rdfDelta⌋).toNat
        = iget s.rdfHist (⌊pairDistance sqrt s i j / s.rdfDelta⌋).toNat + 2 ∧
      ∀ b, b ≠ (⌊pairDistance sqrt s i j / s.rdfDelta⌋).toNat →
        iget (rdfPair sqrt s i j).rdfHist b = iget s.rdfHist b) ∧
    (∀ i j, s.cellLen / 2 ≤ pairDistance sqrt s i j → rdfPair sqrt s i j = s) := by
  refine ⟨⟨calculateRDF_eq sqrt s, nodup_pairsOuter _ _ _, mem_visitedPairs s.n⟩,
    rdfPair_binned sqrt s, ?_, ?_⟩
  · intro i j h
    rw [← hhalf] at h ⊢
    obtain ⟨b1, b2, b3⟩ := bin_valid _ _ _ (hs _) h hdelta
    rw [← hlen] at b3
    refine ⟨b1, b2, b3, ?_, ?_⟩
    · rw [rdfPair_counted sqrt s i j h]
      exact iget_set_eq _ _ _ b3
    · intro b hb
      rw [rdfPair_counted sqrt s i j h]
      exact iget_set_ne _ _ _ _ (Ne.symm hb)
  · intro i j h
    rw [← hhalf] at h
    exact rdfPair_discarded sqrt s i j h

theorem sqrtFloor_nonneg (a : ℚ) : 0 ≤ sqrtFloor a := by
  unfold sqrtFloor
  positivity

theorem twoDisksRdf_distance : pairDistance sqrtFloor twoDisksRdf 0 1 = 3 := by
  have h : distSq twoDisksRdf (vget twoDisksRdf.x 0) (vget twoDisksRdf.y 0)
      (vget twoDisksRdf.x 1) (vget twoDisksRdf.y 1) = 9 := by
    simp only [twoDisksRdf, twoDisks, vget, distSq, List.getD_cons_zero, List.getD_cons_succ]
    norm_num
    rw [wrap_ten_div 0 (by norm_num), wrap_ten_div (-3) (by norm_num)]
    norm_num
  unfold pairDistance
  rw [h]
  simp [sqrtFloor]
  norm_num [Nat.sqrt]

/-- Witness of `rdf_binning`: in the two-disk configuration with bin width 1 and 6 bins the
pair `(0, 1)` is at distance 3 and adds 2 to bin 3. -/
theorem rdf_binning_witness :
    (0 : ℚ) < twoDisksRdf.rdfDelta ∧
    twoDisksRdf.rdfHist.length = (⌊twoDisksRdf.cellLen_2 / twoDisksRdf.rdfDelta⌋ + 1).toNat ∧
    twoDisksRdf.cellLen_2 = twoDisksRdf.cellLen / 2 ∧
    pairDistance sqrtFloor twoDisksRdf 0 1 = 3 ∧
    iget (rdfPair sqrtFloor twoDisksRdf 0 1).rdfHist 3 = 2 := by
  have h1 : (0 : ℚ) < twoDisksRdf.rdfDelta := by norm_num [twoDisksRdf]
  have hf : ⌊twoDisksRdf.cellLen_2 / twoDisksRdf.rdfDelta⌋ = 5 := by
    have e : twoDisksRdf.cellLen_2 / twoDisksRdf.rdfDelta = ((5 : ℤ) : ℚ) := by
      norm_num [twoDisksRdf, twoDisks]
    rw [e, Int.floor_intCast]
  have h2 : twoDisksRdf.rdfHist.length
      = (⌊twoDisksRdf.cellLen_2 / twoDisksRdf.rdfDelta⌋ + 1).toNat := by
    rw [hf]; rfl
  have h3 : twoDisksRdf.cellLen_2 = twoDisksRdf.cellLen / 2 := by
    norm_num [twoDisksRdf, twoDisks]
  have hw := (rdf_binning sqrtFloor sqrtFloor_nonneg twoDisksRdf h1 h2 h3).2.2.1 0 1
    (by rw [twoDisksRdf_distance]; norm_num [twoDisksRdf, twoDisks])
  have hb : (⌊pairDistance sqrtFloor twoDisksRdf 0 1 / twoDisksRdf.rdfDelta⌋).toNat = 3 := by
    have e : pairDistance sqrtFloor twoDisksRdf 0 1 / twoDisksRdf.rdfDelta
        = ((3 : ℤ) : ℚ) := by
      rw [twoDisksRdf_distance]; norm_num [twoDisksRdf]
    rw [e, Int.floor_intCast]; rfl
  rw [hb] at hw
  refine ⟨h1, h2, h3, twoDisksRdf_distance, ?_⟩
  rw [hw.2.2.2.1]
  simp [iget, twoDisksRdf]

/-! ## The histogram over a run of the analysis -/

theorem substr0_length (s : List Char) (k : Nat) : (substr0 s k).length ≤ k :=
  List.length_take_le k s

theorem readInteraction_eq (tag : List Char) :
    readInteraction tag
      = if substr0 tag 3 = ['a', 'd', 'd'] then Except.ok (some 0) else Except.ok none := by
  have h : substr0 tag 3 ≠ ['n', 'o', 'n', 'a', 'd', 'd'] := by
    intro e
    have hl := substr0_length tag 3
    rw [e] at hl
    exact absurd hl (by decide)
  unfold readInteraction
  rw [if_neg h]

/-- Claim C21, evaluated on the code: the interaction block maps a token whose first three
characters are `add` to code 0; its second test compares the first three characters of the
token with the six characters `nonadd`, which never agree, and there is no final `else`:
every other token, `nonadd` among them, leaves `intCode` unassigned and no fatal error is
raised, whereas the dispersity block reports a token it does not know through
`criticalError`. -/
theorem interaction_tag_unset :
    (∀ tag, readInteraction tag
      = if substr0 tag 3 = ['a', 'd', 'd'] then Except.ok (some 0) else Except.ok none) ∧
    (∀ tag, readInteraction tag ≠ Except.ok (some 1)) ∧
    (∀ tag msg, readInteraction tag ≠ Except.error msg) ∧
    readInteraction ['a', 'd', 'd'] = Except.ok (some 0) ∧
    readInteraction ['n', 'o', 'n', 'a', 'd', 'd'] = Except.ok none ∧
    readInteraction ['h', 'a', 'r', 'd'] = Except.ok none ∧
    readDispersity ['h', 'a', 'r', 'd']
      = Except.error "Error reading particle dispersity code" := by
  refine ⟨readInteraction_eq, ?_, ?_, ?_, ?_, ?_, ?_⟩
  · intro tag
    rw [readInteraction_eq]
    split_ifs <;> simp
  · intro tag msg
    rw [readInteraction_eq]
    split_ifs <;> simp
  · rw [readInteraction_eq, if_pos (by decide)]
  · rw [readInteraction_eq, if_neg (by decide)]
  · rw [readInteraction_eq, if_neg (by decide)]
  · unfold readDispersity
    rw [if_neg (by decide), if_neg (by decide), if_neg (by decide)]

/-! ## The cycle loops of the driver -/

theorem cMod_zero (i : Int) : cMod i 0 = none := by
  unfold cMod
  rw [if_pos rfl]

theorem logMoves_zero (cycles : Int) (h1 : 0 ≤ cycles) (h2 : cycles < 100) :
    Int.tdiv cycles 100 = 0 :=
  Int.tdiv_eq_zero_of_lt h1 h2

theorem logMoves_ne_zero (cycles : Int) (h : 100 ≤ cycles) : Int.tdiv cycles 100 ≠ 0 := by
  rw [Int.tdiv_eq_ediv (by omega) (by omega)]
  omega

theorem toNat_succ (cycles : Int) (h : 1 ≤ cycles) : ∃ k, cycles.toNat = k + 1 :=
  Nat.exists_eq_succ_of_ne_zero (by omega)

theorem equilibrationLoop_undefined (k : Nat) (i : Int) (s : HDMC) (accCount : Int)
    (logged : List (Int × ℚ)) (hc : ∃ res, mcCycle s = some res) :
    equilibrationLoop 0 (k + 1) i s accCount logged
      = CycleResult.undefinedModulo i Cadence.log := by
  obtain ⟨res, hres⟩ := hc
  simp only [equilibrationLoop, hres, cMod_zero]

theorem productionLoop_undefined (sqrt : ℚ → ℚ)
    (tessellate : HDMC → List Int × List (List Int)) (xyzWrite : Bool)
    (xyzWriteFreq analysisFreq : Int) (k : Nat) (i : Int) (s : HDMC) (accCount : Int)
    (logged : List (Int × ℚ)) (hc : ∃ res, mcCycle s = some res) :
    productionLoop sqrt tessellate xyzWrite xyzWriteFreq analysisFreq 0 (k + 1) i s accCount
        logged
      = CycleResult.undefinedModulo i Cadence.log := by
  obtain ⟨res, hres⟩ := hc
  simp only [productionLoop, hres, cMod_zero]

/-- Claim C22, evaluated on the code: for a cycle count from 1 to 99 the integer division
`cycles/100` gives `logMoves = 0` while the loop body runs (the loop has `cycles ≥ 1`
passes), so the first pass of the equilibration loop and of the production loop, once its
`mcCycle` has returned, evaluates `1 % 0`, whatever the other cadences are; the modulus is
non-zero exactly from 100 cycles on. -/
theorem cadence_modulus_zero (sqrt : ℚ → ℚ) (tessellate : HDMC → List Int × List (List Int))
    (xyzWrite : Bool) (xyzWriteFreq analysisFreq : Int) (s : HDMC)
    (he : 1 ≤ s.eqCycles ∧ s.eqCycles < 100) (hp : 1 ≤ s.prodCycles ∧ s.prodCycles < 100)
    (hc : ∃ res, mcCycle s = some res) :
    (Int.tdiv s.eqCycles 100 = 0 ∧ 0 < s.eqCycles.toNat ∧
      equilibrationCycles s = CycleResult.undefinedModulo 1 Cadence.log) ∧
    (Int.tdiv s.prodCycles 100 = 0 ∧ 0 < s.prodCycles.toNat ∧
      production sqrt tessellate xyzWrite xyzWriteFreq analysisFreq s
        = CycleResult.undefinedModulo 1 Cadence.log) ∧
    ∀ cycles : Int, 1 ≤ cycles → (Int.tdiv cycles 100 ≠ 0 ↔ 100 ≤ cycles) := by
  refine ⟨⟨logMoves_zero _ (by omega) he.2, by omega, ?_⟩,
    ⟨logMoves_zero _ (by omega) hp.2, by omega, ?_⟩, ?_⟩
  · obtain ⟨k, hk⟩ := toNat_succ s.eqCycles he.1
    unfold equilibrationCycles
    rw [logMoves_zero _ (by omega) he.2, hk]
    exact equilibrationLoop_undefined k 1 s 0 [] hc
  · obtain ⟨k, hk⟩ := toNat_succ s.prodCycles hp.1
    unfold production
    rw [logMoves_zero _ (by omega) hp.2, hk]
    exact productionLoop_undefined sqrt tessellate xyzWrite xyzWriteFreq analysisFreq k 1 s 0
      [] hc
  · intro cycles h1
    constructor
    · intro h
      by_contra hlt
      exact h (logMoves_zero cycles (by omega) (by omega))
    · exact logMoves_ne_zero cycles

theorem fiftyCycles_cycle : ∃ res, mcCycle fiftyCycles = some res := by
  have h1 : fiftyCycles.transProb = 1 := by simp [fiftyCycles, setSimulation]
  obtain ⟨res, hres⟩ := mcCycleLoop_completes 2 fiftyCycles 0
    ⟨twoDisks_tapeSupplies.1, twoDisks_tapeSupplies.2.1, Or.inl h1.ge,
      twoDisks_tapeSupplies.2.2.2⟩
  refine ⟨res, ?_⟩
  unfold mcCycle
  rw [if_pos (by rfl)]
  exact hres

/-- Witness of `cadence_modulus_zero`: the two-disk configuration set up for 50
equilibration and 50 production cycles, with a trajectory frame every 10 cycles and an
analysis every 5: both loops stop at `1 % 0` in their first pass. -/
theorem cadence_modulus_zero_witness :
    fiftyCycles.eqCycles = 50 ∧ fiftyCycles.prodCycles = 50 ∧
    equilibrationCycles fiftyCycles = CycleResult.undefinedModulo 1 Cadence.log ∧
    production sqrtFloor noCells true 10 5 fiftyCycles
      = CycleResult.undefinedModulo 1 Cadence.log := by
  have h := cadence_modulus_zero sqrtFloor noCells true 10 5 fiftyCycles
    ⟨by decide, by decide⟩ ⟨by decide, by decide⟩ fiftyCycles_cycle
  exact ⟨rfl, rfl, h.1.2.2, h.2.1.2.2⟩

/-! ## The network analysis: the loops on doubles and 32-bit products -/

end HDMC
